import Mathlib

/-!
# tproxy: an authenticating, allowlisting HTTP CONNECT proxy

A shallow embedding of `main.go` and of the Go standard-library functions it
calls, followed by theorems about the credential validator (`checkAuth`), the
domain matcher (`isAllowedDomain`), the tunnel handler (`handleRequest`), the
allowlist parser (`parseDomains`) and the startup (`main`).

Conventions of the embedding:

* a Go `string` / `[]byte` is a list of bytes (`GoString`);
* the package-level variables `allowedDomains`, `authUser`, `authPass` are
  passed explicitly;
* library functions are embedded from the Go standard library: `strings`,
  `net.SplitHostPort` and `encoding/base64` in full for the arguments the
  program passes (one-byte separators, `base64.StdEncoding`), and the Unicode
  tables behind `strings.ToLower` and `strings.TrimSpace` as parameters
  (`mapLower`, `UnicodeLib`), reached only for strings with a non-ASCII byte;
* the effects of `handleRequest` (response writes, log lines, dial, hijack,
  copies, deferred closes) are recorded as a trace of `Action`s, and the
  outcomes the environment decides (dial result, hijack support and result)
  are read from a `World`; the steps of `main` are a trace of `MainAction`s
  for the environment variables `Env`.
-/

namespace TProxy

/-! ## Bytes and strings -/

/-- A Go `byte`. -/
abbrev Byte := Fin 256

/-- A Go `string` (equally a `[]byte`): a finite sequence of bytes. -/
abbrev GoString := List Byte

/-- Go's conversion `byte(n)` of an unsigned integer: the low eight bits. -/
def byteOfNat (n : Nat) : Byte := ⟨n % 256, Nat.mod_lt n (by decide)⟩

/-- The bytes of an ASCII literal of the source (one byte per character). -/
def ascii (s : String) : GoString := s.toList.map (fun c => byteOfNat c.toNat)

/-- The byte `':'`. -/
def colon : Byte := 58
/-- The byte `'['`. -/
def lbrack : Byte := 91
/-- The byte `']'`. -/
def rbrack : Byte := 93
/-- The byte `'.'`. -/
def dot : Byte := 46
/-- The byte `'='`, the padding character of `base64.StdEncoding`. -/
def padChar : Byte := 61
/-- The byte `'\n'`. -/
def LF : Byte := 10
/-- The byte `'\r'`. -/
def CR : Byte := 13

/-! ## Package `strings` -/

/-- Go `strings.HasPrefix`: `len(s) >= len(prefix) && s[:len(prefix)] == prefix`. -/
def HasPrefix (s pre : GoString) : Bool :=
  decide (pre.length ≤ s.length) && decide (s.take pre.length = pre)

/-- Go `strings.HasSuffix`:
`len(s) >= len(suffix) && s[len(s)-len(suffix):] == suffix`. -/
def HasSuffix (s suf : GoString) : Bool :=
  decide (suf.length ≤ s.length) && decide (s.drop (s.length - suf.length) = suf)

/-- Go `strings.TrimPrefix`: `s[len(prefix):]` when `s` has the prefix, else `s`. -/
def TrimPrefix (s pre : GoString) : GoString :=
  if HasPrefix s pre then s.drop pre.length else s

/-- Go `strings.IndexByte`: index of the first `c` in `s`, `none` for Go's `-1`. -/
def IndexByte : GoString → Byte → Option Nat
  | [], _ => none
  | b :: t, c => if b = c then some 0 else (IndexByte t c).map (· + 1)

/-- Go `strings.LastIndexByte`: index of the last `c` in `s`, `none` for `-1`. -/
def LastIndexByte : GoString → Byte → Option Nat
  | [], _ => none
  | b :: t, c =>
    match LastIndexByte t c with
    | some i => some (i + 1)
    | none => if b = c then some 0 else none

/-- Go `strings.Count` for a one-byte separator: the number of occurrences. -/
def Count (s : GoString) (c : Byte) : Nat := s.count c

/-- The loop of Go `strings.genSplit` for a one-byte separator: at most `n`
cuts, each at the first separator of what is left; the rest is the last piece. -/
def genSplitLoop (sep : Byte) : Nat → GoString → List GoString
  | 0, s => [s]
  | n + 1, s =>
    match IndexByte s sep with
    | none => [s]
    | some m => s.take m :: genSplitLoop sep n (s.drop (m + 1))

/-- Go `strings.genSplit(s, sep, 0, n)` for a one-byte separator `sep`
(for which `strings.Index` is `IndexByte`): `nil` when `n == 0`; `n < 0` means
all pieces; `n` is capped at `len(s) + 1`. -/
def genSplit (s : GoString) (sep : Byte) (n : Int) : List GoString :=
  if n = 0 then []
  else
    let n1 : Nat := if n < 0 then Count s sep + 1 else n.toNat
    let n2 : Nat := if n1 > s.length + 1 then s.length + 1 else n1
    genSplitLoop sep (n2 - 1) s

/-- Go `strings.SplitN(s, sep, n)` for a one-byte separator. -/
def SplitN (s : GoString) (sep : Byte) (n : Int) : List GoString := genSplit s sep n

/-- Go `strings.Split(s, sep)` for a one-byte separator: `genSplit(s, sep, 0, -1)`. -/
def Split (s : GoString) (sep : Byte) : List GoString := genSplit s sep (-1)

/-- The ASCII range: bytes below `utf8.RuneSelf` (0x80). -/
def isASCIIByte (c : Byte) : Bool := decide (c.val < 128)

/-- The ASCII upper-case letters `'A'..'Z'`. -/
def isUpperASCII (c : Byte) : Bool := decide (65 ≤ c.val) && decide (c.val ≤ 90)

/-- The ASCII fast path of `strings.ToLower` on one byte: `c += 'a' - 'A'` for
`'A' <= c <= 'Z'`, other bytes unchanged. -/
def lowerASCIIByte (c : Byte) : Byte := if isUpperASCII c then c + 32 else c

/-- Go `strings.ToLower`. A string made of ASCII bytes only is lowered byte by
byte; any other string goes through `strings.Map(unicode.ToLower, s)`, whose
Unicode case tables are not part of this program and are taken as the
parameter `mapLower`. -/
def ToLower (mapLower : GoString → GoString) (s : GoString) : GoString :=
  if s.all isASCIIByte then s.map lowerASCIIByte else mapLower s

/-! ## Package `net` -/

/-- Go `net.SplitHostPort`: `some (host, port)` on success, `none` when the Go
function returns an error (missing port, too many colons, a missing or
unexpected bracket). -/
def SplitHostPort (hostport : GoString) : Option (GoString × GoString) :=
  match LastIndexByte hostport colon with
  | none => none
  | some i =>
    if hostport.head? = some lbrack then
      match IndexByte hostport rbrack with
      | none => none
      | some e =>
        if e + 1 = hostport.length then none
        else if e + 1 = i then
          if (IndexByte (hostport.drop 1) lbrack).isSome then none
          else if (IndexByte (hostport.drop (e + 1)) rbrack).isSome then none
          else some ((hostport.take e).drop 1, hostport.drop (i + 1))
        else none
    else
      let host := hostport.take i
      if (IndexByte host colon).isSome then none
      else if (IndexByte hostport lbrack).isSome then none
      else if (IndexByte hostport rbrack).isSome then none
      else some (host, hostport.drop (i + 1))

/-! ## The domain matcher -/

/-- The function `isAllowedDomain` of `main.go`, with the package variable
`allowedDomains` as an argument. -/
def isAllowedDomain (mapLower : GoString → GoString) (allowedDomains : List GoString)
    (hostport : GoString) : Bool :=
  let host :=
    match SplitHostPort hostport with
    | some (h, _) => h
    | none => hostport
  let host := ToLower mapLower host
  allowedDomains.any (fun domain => decide (host = domain) || HasSuffix host (dot :: domain))

/-! ## Package `encoding/base64` (the encoding `base64.StdEncoding`) -/

/-- The 64-character alphabet `encodeStd` of `base64.StdEncoding`. -/
def encodeStd : GoString :=
  ascii "ABCDEFGHIJKLMNOPQRSTUVWXYZabcdefghijklmnopqrstuvwxyz0123456789+/"

/-- The table `enc.encode`: the alphabet character of a 6-bit value. -/
def encodeTable (i : Nat) : Byte := encodeStd.getD i 0

/-- The table `enc.decodeMap`: the 6-bit value of an alphabet character and
`0xff` (255) for every other byte. -/
def decodeMap (c : Byte) : Nat := if c ∈ encodeStd then encodeStd.indexOf c else 255

/-- Go `base64.StdEncoding.EncodeToString`: three bytes give four alphabet
characters; a remainder of one or two bytes gives two or three characters
followed by `=` padding. -/
def EncodeToString : GoString → GoString
  | [] => []
  | [a] =>
    let val := a.val <<< 16
    [encodeTable (val >>> 18 &&& 63), encodeTable (val >>> 12 &&& 63), padChar, padChar]
  | [a, b] =>
    let val := a.val <<< 16 ||| b.val <<< 8
    [encodeTable (val >>> 18 &&& 63), encodeTable (val >>> 12 &&& 63),
      encodeTable (val >>> 6 &&& 63), padChar]
  | a :: b :: c :: rest =>
    let val := a.val <<< 16 ||| b.val <<< 8 ||| c.val
    encodeTable (val >>> 18 &&& 63) :: encodeTable (val >>> 12 &&& 63) ::
      encodeTable (val >>> 6 &&& 63) :: encodeTable (val &&& 63) :: EncodeToString rest

/-- The decoder's "skip over newlines" loop: drop leading `'\n'` and `'\r'`. -/
def skipNewlines (s : GoString) : GoString := s.dropWhile (fun c => c = LF || c = CR)

/-- The end of `decodeQuantum`: the 6-bit values collected in `dbuf` (missing
ones are zero) are packed into 24 bits, and `len(dbuf) - 1` bytes of them are
produced. The encoding is not strict: the bits left over are not inspected. -/
def quantumBytes (dbuf : List Nat) : GoString :=
  let val := dbuf.getD 0 0 <<< 18 ||| dbuf.getD 1 0 <<< 12 ||| dbuf.getD 2 0 <<< 6 ||| dbuf.getD 3 0
  [byteOfNat (val >>> 16), byteOfNat (val >>> 8), byteOfNat (val >>> 0)].take (dbuf.length - 1)

/-- The loop of Go `(*Encoding).Decode` for `base64.StdEncoding` together with
`decodeQuantum`, on what is left of the input; `dbuf` holds the 6-bit values of
the quantum read so far. `none` stands for a `CorruptInputError`.

* an alphabet character is added to the quantum, and a full quantum of four
  gives three bytes;
* `'\n'` and `'\r'` are ignored wherever they stand;
* any other byte except `=` is corrupt input;
* `=` is corrupt after zero or one character of a quantum; after two
  characters a second `=` must follow; after the padding only newlines may
  follow (trailing garbage is an error);
* the input may end only between quanta. -/
def decodeFrom : List Nat → GoString → Option GoString
  | dbuf, [] => if dbuf.length = 0 then some [] else none
  | dbuf, c :: rest =>
    if decodeMap c ≠ 255 then
      if dbuf.length = 3 then
        (decodeFrom [] rest).map (fun out => quantumBytes (dbuf ++ [decodeMap c]) ++ out)
      else decodeFrom (dbuf ++ [decodeMap c]) rest
    else if c = LF ∨ c = CR then decodeFrom dbuf rest
    else if c ≠ padChar then none
    else if dbuf.length < 2 then none
    else if dbuf.length = 2 then
      match skipNewlines rest with
      | [] => none
      | c2 :: rest2 =>
        if c2 ≠ padChar then none
        else if skipNewlines rest2 = [] then some (quantumBytes dbuf) else none
    else if skipNewlines rest = [] then some (quantumBytes dbuf) else none

/-- Go `base64.StdEncoding.DecodeString`: the decoded bytes, or `none` when
the Go function returns an error. -/
def DecodeString (s : GoString) : Option GoString := decodeFrom [] s

/-! ### Which strings decode to the same bytes

The decoder is lenient in two ways: it ignores `'\r'` and `'\n'`, and it does
not look at the bits of the last character that do not belong to a whole byte.
The definitions below name the strings it identifies. -/

/-- The bytes `'\n'` and `'\r'`, which the decoder ignores. -/
def isNewline (c : Byte) : Bool := decide (c = LF) || decide (c = CR)

/-- The string without its `'\r'` and `'\n'` bytes. -/
def stripNewlines (s : GoString) : GoString := s.filter (fun c => !isNewline c)

/-- The byte `c2` is an alphabet character whose 6-bit value agrees with that
of `c1` above the low bits counted by `unused` (16 for four unused bits, 4 for
two). -/
def sameUsedBits (unused : Nat) (c1 c2 : Byte) : Bool :=
  decide (decodeMap c2 ≠ 255) && decide (decodeMap c2 / unused = decodeMap c1 / unused)

/-- The strings `e` and `t` are equal byte for byte, except that the
character standing just before the final `==` (or the final single `=`) of `e`
may be replaced in `t` by an alphabet character that differs from it only in
its four (or two) unused low-order bits. -/
def eqUpToSlack : GoString → GoString → Bool
  | [], [] => true
  | c :: e, c2 :: t =>
    (if e = [padChar, padChar] then sameUsedBits 16 c c2
      else if e = [padChar] ∧ c ≠ padChar then sameUsedBits 4 c c2
      else decide (c = c2)) && eqUpToSlack e t
  | _, _ => false

/-- The byte `c` with bit `k` flipped. -/
def flipBit (c : Byte) (k : Fin 8) : Byte := byteOfNat (c.val ^^^ (1 <<< k.val))

/-- The string `s` with bit `k` of the byte at index `i` flipped (`s` itself
when `i` is out of range). -/
def flipBitAt : GoString → Nat → Fin 8 → GoString
  | [], _, _ => []
  | c :: t, 0, k => flipBit c k :: t
  | c :: t, i + 1, k => c :: flipBitAt t i k

/-- Flipping bit `k` of the byte at index `i` of `e` only touches unused
bits: the byte is the last character before the final `==` (or the final
single `=`), it is not itself padding, and the flipped byte is an alphabet
character with the same four-bit-shifted (or two-bit-shifted) value. -/
def flipInSlack (e : GoString) (i : Nat) (k : Fin 8) : Bool :=
  match e.drop i with
  | [c, p1, p2] =>
    decide (p1 = padChar) && decide (p2 = padChar) && sameUsedBits 16 c (flipBit c k)
  | [c, p1] => decide (p1 = padChar) && decide (c ≠ padChar) && sameUsedBits 4 c (flipBit c k)
  | _ => false

/-! ## The program state and the request -/

/-- The package-level variables of `main.go` set at startup. -/
structure Config where
  /-- The variable `allowedDomains`. -/
  allowedDomains : List GoString
  /-- The variable `authUser`. -/
  authUser : GoString
  /-- The variable `authPass`. -/
  authPass : GoString

/-- The fields of `*http.Request` that the handler reads. -/
structure Request where
  /-- The field `r.Method`. -/
  method : GoString
  /-- The field `r.Host`. -/
  host : GoString
  /-- The field `r.RemoteAddr`. -/
  remoteAddr : GoString
  /-- The values `r.Header["Proxy-Authorization"]`, empty when the header is absent. -/
  proxyAuthorization : List GoString

/-- Go `r.Header.Get("Proxy-Authorization")`: the first value of the header,
the empty string when there is none. -/
def Request.getProxyAuthorization (r : Request) : GoString := r.proxyAuthorization.headD []

/-! ## The credential validator -/

/-- The function `checkAuth` of `main.go`, with the package variables
`authUser` and `authPass` as arguments. -/
def checkAuth (authUser authPass : GoString) (r : Request) : Bool :=
  let auth := r.getProxyAuthorization
  if !HasPrefix auth (ascii "Basic ") then false
  else
    match DecodeString (TrimPrefix auth (ascii "Basic ")) with
    | none => false
    | some payload =>
      let pair := SplitN payload colon 2
      decide (pair.length = 2) && decide (pair[0]? = some authUser) &&
        decide (pair[1]? = some authPass)

/-- A request that carries the single `Proxy-Authorization` value `h`. -/
def withAuth (h : GoString) : Request :=
  { method := ascii "CONNECT", host := [], remoteAddr := [], proxyAuthorization := [h] }

/-! ## The tunnel handler -/

/-- The two connections of a tunnel session. -/
inductive Conn where
  /-- The variable `clientConn`: the hijacked client connection. -/
  | client
  /-- The variable `destConn`: the connection dialed to the target. -/
  | dest
  deriving DecidableEq, Repr

/-- The observable steps of `handleRequest`, in program order. -/
inductive Action where
  /-- The call `w.Header().Set(key, value)`. -/
  | setHeader (key value : GoString)
  /-- The call `http.Error(w, msg, code)`: the response with status `code`. -/
  | httpError (msg : GoString) (code : Nat)
  /-- The call `log.Printf(format, args...)`: one event line. -/
  | logPrintf (format : GoString) (args : List GoString)
  /-- The call `net.Dial(network, address)`. -/
  | dial (network address : GoString)
  /-- The call `hijacker.Hijack()`. -/
  | hijack
  /-- The call `c.Write(data)`. -/
  | write (c : Conn) (data : GoString)
  /-- The statement `go io.Copy(dst, src)`: a copy started on its own goroutine. -/
  | goCopy (dst src : Conn)
  /-- The call `io.Copy(dst, src)` on the handler's goroutine. -/
  | copy (dst src : Conn)
  /-- A deferred `c.Close()`, run when the handler returns. -/
  | close (c : Conn)
  deriving DecidableEq, Repr

/-- What the environment decides during one run of `handleRequest`. -/
structure World where
  /-- The result of `net.Dial(network, address)`: `none` for a nil error (the
  connection is open), `some e` for an error with text `e`. -/
  dialErr : GoString → GoString → Option GoString
  /-- Whether the assertion `w.(http.Hijacker)` succeeds. -/
  hijacker : Bool
  /-- The result of `hijacker.Hijack()`: `none` for a nil error. -/
  hijackErr : Option GoString

/-- The constant `http.MethodConnect`. -/
def MethodConnect : GoString := ascii "CONNECT"
/-- The constant `http.StatusProxyAuthRequired`. -/
def StatusProxyAuthRequired : Nat := 407
/-- The constant `http.StatusMethodNotAllowed`. -/
def StatusMethodNotAllowed : Nat := 405
/-- The constant `http.StatusForbidden`. -/
def StatusForbidden : Nat := 403
/-- The constant `http.StatusServiceUnavailable`. -/
def StatusServiceUnavailable : Nat := 503
/-- The constant `http.StatusInternalServerError`. -/
def StatusInternalServerError : Nat := 500

/-- The format of the `auth_fail` event. -/
def fmtAuthFail : GoString := ascii "\x7b\"event\":\"auth_fail\",\"client\":\"%s\"\x7d"
/-- The format of the `invalid_method` event. -/
def fmtInvalidMethod : GoString :=
  ascii "\x7b\"event\":\"invalid_method\",\"method\":\"%s\",\"client\":\"%s\"\x7d"
/-- The format of the `domain_denied` event. -/
def fmtDomainDenied : GoString :=
  ascii "\x7b\"event\":\"domain_denied\",\"client\":\"%s\",\"target\":\"%s\"\x7d"
/-- The format of the `connect` event. -/
def fmtConnect : GoString :=
  ascii "\x7b\"event\":\"connect\",\"client\":\"%s\",\"target\":\"%s\"\x7d"
/-- The format of the `dial_failed` event. -/
def fmtDialFailed : GoString :=
  ascii "\x7b\"event\":\"dial_failed\",\"target\":\"%s\",\"error\":\"%s\"\x7d"

/-- The bytes written to the hijacked client connection on success. -/
def establishedLine : GoString := ascii "HTTP/1.1 200 Connection established\r\n\r\n"

/-- The function `handleRequest` of `main.go`: the trace of its actions for
the request `r`, the configuration `cfg` and the environment `world`. The
deferred closes are placed where they run, at the return of the handler, in
reverse order of their `defer` statements. -/
def handleRequest (mapLower : GoString → GoString) (cfg : Config) (world : World)
    (r : Request) : List Action :=
  if !checkAuth cfg.authUser cfg.authPass r then
    [Action.setHeader (ascii "Proxy-Authenticate") (ascii "Basic realm=\"Restricted\""),
      Action.httpError (ascii "Proxy authentication required") StatusProxyAuthRequired,
      Action.logPrintf fmtAuthFail [r.remoteAddr]]
  else if r.method ≠ MethodConnect then
    [Action.httpError (ascii "Only CONNECT method allowed") StatusMethodNotAllowed,
      Action.logPrintf fmtInvalidMethod [r.method, r.remoteAddr]]
  else
    let host := r.host
    if !isAllowedDomain mapLower cfg.allowedDomains host then
      [Action.httpError (ascii "Domain not allowed") StatusForbidden,
        Action.logPrintf fmtDomainDenied [r.remoteAddr, host]]
    else
      Action.logPrintf fmtConnect [r.remoteAddr, host] ::
      Action.dial (ascii "tcp") host ::
      (match world.dialErr (ascii "tcp") host with
      | some err =>
        [Action.httpError (ascii "Could not connect to destination") StatusServiceUnavailable,
          Action.logPrintf fmtDialFailed [host, err]]
      | none =>
        (if !world.hijacker then
          [Action.httpError (ascii "Hijacking not supported") StatusInternalServerError]
        else
          Action.hijack ::
          (match world.hijackErr with
          | some _ =>
            [Action.httpError (ascii "Hijacking failed") StatusInternalServerError]
          | none =>
            [Action.write Conn.client establishedLine,
              Action.goCopy Conn.dest Conn.client,
              Action.copy Conn.client Conn.dest,
              Action.close Conn.client]))
        ++ [Action.close Conn.dest])

/-- The action is a dial. -/
def Action.isDial : Action → Bool
  | Action.dial _ _ => true
  | _ => false

/-- The action writes bytes to a connection. -/
def Action.isWrite : Action → Bool
  | Action.write _ _ => true
  | _ => false

/-- The action relays bytes between the two connections. -/
def Action.isRelay : Action → Bool
  | Action.goCopy _ _ => true
  | Action.copy _ _ => true
  | _ => false

/-- The action writes a response through the `http.ResponseWriter`
(a header or a status with a body). -/
def Action.isResponse : Action → Bool
  | Action.setHeader _ _ => true
  | Action.httpError _ _ => true
  | _ => false

/-- The status code of a response written with `http.Error`. -/
def Action.statusCode : Action → Option Nat
  | Action.httpError _ code => some code
  | _ => none

/-- The status codes the handler responds with, in order. -/
def statusCodes (trace : List Action) : List Nat := trace.filterMap Action.statusCode

/-! ## Sample configuration, environments and requests -/

/-- A configuration: user `u`, password `pw`, allowlist `example.com`. -/
def sampleConfig : Config :=
  { allowedDomains := [ascii "example.com"], authUser := ascii "u", authPass := ascii "pw" }

/-- An environment in which the dial and the hijack succeed. -/
def worldOk : World := { dialErr := fun _ _ => none, hijacker := true, hijackErr := none }

/-- An environment in which every dial is refused. -/
def worldRefused : World :=
  { dialErr := fun _ _ => some (ascii "connection refused"), hijacker := true, hijackErr := none }

/-- A `CONNECT api.example.com:443` request with the credentials `u:pw`. -/
def sampleRequest : Request :=
  { method := ascii "CONNECT", host := ascii "api.example.com:443",
    remoteAddr := ascii "10.0.0.7:51234", proxyAuthorization := [ascii "Basic dTpwdw=="] }

/-! ## Observations on a trace of the handler -/

/-- The action writes an event line (`log.Printf`). -/
def Action.isLog : Action → Bool
  | Action.logPrintf _ _ => true
  | _ => false

/-- The event lines of a trace, in order. -/
def eventLines (trace : List Action) : List Action := trace.filter Action.isLog

/-- Every action of the list that satisfies `q` has an action that satisfies
`p` strictly before it; `seen` tells whether such an action came earlier. -/
def precededBy (p q : Action → Bool) (seen : Bool) : List Action → Bool
  | [] => true
  | a :: t => (!q a || seen) && precededBy p q (seen || p a) t

/-- The destination connection was opened in this run: a dial was attempted
and `net.Dial` returned no error. -/
def destOpened (world : World) (r : Request) (trace : List Action) : Bool :=
  trace.any Action.isDial && (world.dialErr (ascii "tcp") r.host).isNone

/-- The client connection was detached in this run: `Hijack` was called and
returned no error. -/
def clientOpened (world : World) (trace : List Action) : Bool :=
  trace.any (fun a => decide (a = Action.hijack)) && world.hijackErr.isNone

/-- An environment in which the response writer cannot be hijacked. -/
def worldNoHijacker : World :=
  { dialErr := fun _ _ => none, hijacker := false, hijackErr := none }

/-- An environment in which `Hijack` fails. -/
def worldHijackFails : World :=
  { dialErr := fun _ _ => none, hijacker := true, hijackErr := some (ascii "hijack failed") }

/-! ## Trimming, the allowlist parser and the startup -/

/-- The byte `','`. -/
def comma : Byte := 44

/-- The table `asciiSpace` of package `strings`: `'\t'`, `'\n'`, `'\v'`,
`'\f'`, `'\r'` and `' '`. -/
def asciiSpace (c : Byte) : Bool :=
  decide (c = 9) || decide (c = 10) || decide (c = 11) || decide (c = 12) ||
    decide (c = 13) || decide (c = 32)

/-- The Unicode-aware functions of the Go library that the program reaches
only for strings with a non-ASCII byte. Their tables are not part of this
program; they are taken as parameters. -/
structure UnicodeLib where
  /-- Go `strings.Map(unicode.ToLower, s)`, the non-ASCII path of `strings.ToLower`. -/
  mapLower : GoString → GoString
  /-- Go `strings.TrimFunc(s, unicode.IsSpace)`. -/
  trimFunc : GoString → GoString
  /-- Go `strings.TrimRightFunc(s, unicode.IsSpace)`. -/
  trimRightFunc : GoString → GoString
  /-- The string is not empty and its first code point is white space
  (`unicode.IsSpace`). -/
  isSpaceFirst : GoString → Bool
  /-- The string is not empty and its last code point is white space
  (`unicode.IsSpace`). -/
  isSpaceLast : GoString → Bool

/-- What the theorems on the allowlist parser use of the library functions,
each a consequence of their documented behaviour: lowering maps letters to
letters (it keeps a string non-empty, yields no upper-case ASCII letter, and
creates neither a comma nor white space at either end); trimming returns a
slice of its argument with no white space left at the trimmed ends; and on an
ASCII byte white space is the table `asciiSpace`. -/
structure UnicodeLib.Sound (u : UnicodeLib) : Prop where
  /-- Lowering a non-empty string gives a non-empty string. -/
  lower_ne_nil : ∀ s, s ≠ [] → u.mapLower s ≠ []
  /-- A lowered string holds no upper-case ASCII letter. -/
  lower_no_upper : ∀ s, ∀ c ∈ u.mapLower s, isUpperASCII c = false
  /-- Lowering creates no comma. -/
  lower_comma : ∀ s, comma ∈ u.mapLower s → comma ∈ s
  /-- Lowering creates no leading white space. -/
  lower_first : ∀ s, u.isSpaceFirst (u.mapLower s) = true → u.isSpaceFirst s = true
  /-- Lowering creates no trailing white space. -/
  lower_last : ∀ s, u.isSpaceLast (u.mapLower s) = true → u.isSpaceLast s = true
  /-- The result of `TrimFunc` is a slice of its argument. -/
  trim_slice : ∀ s, u.trimFunc s <:+: s
  /-- The result of `TrimFunc` has no leading white space. -/
  trim_first : ∀ s, u.isSpaceFirst (u.trimFunc s) = false
  /-- The result of `TrimFunc` has no trailing white space. -/
  trim_last : ∀ s, u.isSpaceLast (u.trimFunc s) = false
  /-- The result of `TrimRightFunc` is a prefix of its argument. -/
  trimRight_initial : ∀ s, u.trimRightFunc s <+: s
  /-- The result of `TrimRightFunc` has no trailing white space. -/
  trimRight_last : ∀ s, u.isSpaceLast (u.trimRightFunc s) = false
  /-- The empty string has no leading white space. -/
  first_nil : u.isSpaceFirst [] = false
  /-- The empty string has no trailing white space. -/
  last_nil : u.isSpaceLast [] = false
  /-- A first byte below `utf8.RuneSelf` is a code point of its own. -/
  first_ascii : ∀ c t, isASCIIByte c = true → u.isSpaceFirst (c :: t) = asciiSpace c
  /-- A last byte below `utf8.RuneSelf` is a code point of its own. -/
  last_ascii : ∀ c t, isASCIIByte c = true → u.isSpaceLast (t ++ [c]) = asciiSpace c

/-- The second loop of Go `strings.TrimSpace`, on the reversed string: scan
from the end; a non-ASCII byte hands what is left to `TrimRightFunc`; an ASCII
white-space byte is dropped; any other byte ends the scan. -/
def trimSpaceEnd (u : UnicodeLib) : GoString → GoString
  | [] => []
  | c :: t =>
    if !isASCIIByte c then u.trimRightFunc (c :: t).reverse
    else if asciiSpace c then trimSpaceEnd u t
    else (c :: t).reverse

/-- Go `strings.TrimSpace`. The first loop scans from the start: a non-ASCII
byte hands the rest of the string to `TrimFunc`; an ASCII white-space byte is
dropped; any other byte starts the second loop, which scans from the end. -/
def TrimSpace (u : UnicodeLib) : GoString → GoString
  | [] => []
  | c :: t =>
    if !isASCIIByte c then u.trimFunc (c :: t)
    else if asciiSpace c then TrimSpace u t
    else trimSpaceEnd u (c :: t).reverse

/-- The function `parseDomains` of `main.go`: the pieces of `raw` between
commas are trimmed; each non-empty one is lowered and appended to `cleaned`. -/
def parseDomains (u : UnicodeLib) (raw : GoString) : List GoString :=
  (Split raw comma).foldl
    (fun cleaned p =>
      let d := TrimSpace u p
      if d ≠ [] then cleaned ++ [ToLower u.mapLower d] else cleaned)
    []

/-- The environment variables that `main` reads with `os.Getenv` (the empty
string when a variable is not set). -/
structure Env where
  /-- The variable `PROXY_USER`. -/
  proxyUser : GoString
  /-- The variable `PROXY_PASS`. -/
  proxyPass : GoString
  /-- The variable `ALLOWED_DOMAINS`. -/
  allowedDomains : GoString

/-- The observable steps of `main`, in program order. -/
inductive MainAction where
  /-- The call `log.Fatal(msg)`: the message is printed and the process exits. -/
  | logFatal (msg : GoString)
  /-- The call `log.Printf("Allowed domains: %v", allowedDomains)`. -/
  | logAllowedDomains (domains : List GoString)
  /-- The call `log.Println("Proxy listening on", listenAddr)`. -/
  | logListening (addr : GoString)
  /-- The call `server.ListenAndServe()`: the listener is bound on `addr` and
  requests are served by `handleRequest` with the package variables `cfg`. -/
  | listenAndServe (addr : GoString) (cfg : Config)
  /-- The call `log.Fatal(err)` on the error that `ListenAndServe` returns. -/
  | logFatalServe

/-- The variable `listenAddr`. -/
def listenAddr : GoString := ascii ":8080"

/-- The message of the startup check. -/
def msgMissingEnv : GoString :=
  ascii "Missing required environment variables: PROXY_USER, PROXY_PASS, ALLOWED_DOMAINS"

/-- The function `main` of `main.go`: the trace of its actions for the
environment `env`. After `log.Fatal` nothing else runs. -/
def main (u : UnicodeLib) (env : Env) : List MainAction :=
  let authUser := env.proxyUser
  let authPass := env.proxyPass
  let rawDomains := env.allowedDomains
  if authUser = [] ∨ authPass = [] ∨ rawDomains = [] then
    [MainAction.logFatal msgMissingEnv]
  else
    let allowedDomains := parseDomains u rawDomains
    [MainAction.logAllowedDomains allowedDomains,
      MainAction.logListening listenAddr,
      MainAction.listenAndServe listenAddr
        { allowedDomains := allowedDomains, authUser := authUser, authPass := authPass },
      MainAction.logFatalServe]

/-- The action binds the listener. -/
def MainAction.isListen : MainAction → Bool
  | MainAction.listenAndServe _ _ => true
  | _ => false

/-- An instance of the library functions that knows ASCII only: it lowers
`'A'..'Z'`, trims the bytes of `asciiSpace`, and takes every other byte for a
letter without case. -/
def asciiLib : UnicodeLib :=
  { mapLower := fun s => s.map lowerASCIIByte
    trimFunc := fun s => (s.dropWhile asciiSpace).rdropWhile asciiSpace
    trimRightFunc := fun s => s.rdropWhile asciiSpace
    isSpaceFirst := fun s => s.head?.any asciiSpace
    isSpaceLast := fun s => s.getLast?.any asciiSpace }

/-- The configuration with which the action serves requests, if it is
`ListenAndServe`. -/
def MainAction.served : MainAction → Option Config
  | MainAction.listenAndServe _ cfg => some cfg
  | _ => none

/-- The allowlists with which a run of `main` serves requests. -/
def servedAllowlists (trace : List MainAction) : List (List GoString) :=
  (trace.filterMap MainAction.served).map Config.allowedDomains

/-! ## Lemmas on the string functions -/

theorem IndexByte_eq_none_iff (s : GoString) (c : Byte) : IndexByte s c = none ↔ c ∉ s := by
  induction s with
  | nil => simp [IndexByte]
  | cons b t ih =>
    by_cases h : b = c
    · simp [IndexByte, h]
    · have h2 : ¬ c = b := fun e => h e.symm
      simp [IndexByte, h, h2, ih]

theorem IndexByte_isSome_iff (s : GoString) (c : Byte) : (IndexByte s c).isSome = true ↔ c ∈ s := by
  rw [← not_iff_not, ← IndexByte_eq_none_iff]
  cases IndexByte s c <;> simp

theorem LastIndexByte_eq_none_iff (s : GoString) (c : Byte) :
    LastIndexByte s c = none ↔ c ∉ s := by
  induction s with
  | nil => simp [LastIndexByte]
  | cons b t ih =>
    simp only [LastIndexByte]
    cases hl : LastIndexByte t c with
    | some i =>
      have : c ∈ t := by
        by_contra hc
        rw [ih.mpr hc] at hl
        cases hl
      simp [this]
    | none =>
      have hc : c ∉ t := ih.mp hl
      by_cases h : b = c
      · simp [h]
      · have h2 : ¬ c = b := fun e => h e.symm
        simp [h, h2, hc]

theorem LastIndexByte_append_sep (h p : GoString) (c : Byte) (hp : c ∉ p) :
    LastIndexByte (h ++ c :: p) c = some h.length := by
  induction h with
  | nil =>
    simp [LastIndexByte, (LastIndexByte_eq_none_iff p c).mpr hp]
  | cons b t ih =>
    simp [LastIndexByte, ih]

theorem HasSuffix_iff (s suf : GoString) : HasSuffix s suf = true ↔ suf <:+ s := by
  unfold HasSuffix
  simp only [Bool.and_eq_true, decide_eq_true_eq]
  constructor
  · rintro ⟨_, h⟩
    have e := List.take_append_drop (s.length - suf.length) s
    rw [h] at e
    exact ⟨_, e⟩
  · rintro ⟨t, rfl⟩
    simp

theorem HasPrefix_iff (s pre : GoString) : HasPrefix s pre = true ↔ pre <+: s := by
  unfold HasPrefix
  simp only [Bool.and_eq_true, decide_eq_true_eq]
  constructor
  · rintro ⟨_, h⟩
    have e := List.take_append_drop pre.length s
    rw [h] at e
    exact ⟨_, e⟩
  · rintro ⟨t, rfl⟩
    simp

theorem SplitHostPort_host_port (h p : GoString)
    (hh : colon ∉ h ∧ lbrack ∉ h ∧ rbrack ∉ h) (hp : colon ∉ p ∧ lbrack ∉ p ∧ rbrack ∉ p) :
    SplitHostPort (h ++ colon :: p) = some (h, p) := by
  obtain ⟨h1, h2, h3⟩ := hh
  obtain ⟨p1, p2, p3⟩ := hp
  have hhead : (h ++ colon :: p).head? ≠ some lbrack := by
    cases h with
    | nil => simp [colon, lbrack]
    | cons b t =>
      simp only [List.cons_append, List.head?_cons, ne_eq, Option.some.injEq]
      rintro rfl
      simp at h2
  have hc : (IndexByte h colon).isSome = false := by
    rw [Bool.eq_false_iff, Ne, IndexByte_isSome_iff]; exact h1
  have hl : (IndexByte (h ++ colon :: p) lbrack).isSome = false := by
    rw [Bool.eq_false_iff, Ne, IndexByte_isSome_iff]
    simp only [List.mem_append, List.mem_cons, not_or]
    exact ⟨h2, by decide, p2⟩
  have hr : (IndexByte (h ++ colon :: p) rbrack).isSome = false := by
    rw [Bool.eq_false_iff, Ne, IndexByte_isSome_iff]
    simp only [List.mem_append, List.mem_cons, not_or]
    exact ⟨h3, by decide, p3⟩
  unfold SplitHostPort
  rw [LastIndexByte_append_sep h p colon p1]
  simp only []
  rw [if_neg hhead]
  simp [hc, hl, hr]

theorem isAllowedDomain_single (mapLower : GoString → GoString) (host d : GoString) :
    (List.any [d] fun domain =>
        decide (ToLower mapLower host = domain) || HasSuffix (ToLower mapLower host) (dot :: domain)) = true ↔
      ToLower mapLower host = d ∨ (ascii "." ++ d) <:+ ToLower mapLower host := by
  have e : ascii "." ++ d = dot :: d := rfl
  rw [e]
  simp [HasSuffix_iff]

/-- C1. For every hostname `h` without `':'`, `'['`, `']'`, every port `p`
(any string without those characters, in particular every decimal port
number) and every allowlist entry `d`, `isAllowedDomain` on `h + ":" + p`
with the allowlist `[d]` is true exactly when the lowercased `h` equals `d` or
ends with `"." + d`; `"api.example.com:443"` is allowed and
`"evilexample.com:443"` is denied for `d = "example.com"`. -/
theorem isAllowedDomain_iff_equal_or_subdomain (mapLower : GoString → GoString)
    (h p d : GoString)
    (hh : colon ∉ h ∧ lbrack ∉ h ∧ rbrack ∉ h)
    (hp : colon ∉ p ∧ lbrack ∉ p ∧ rbrack ∉ p) :
    (isAllowedDomain mapLower [d] (h ++ ascii ":" ++ p) = true ↔
        ToLower mapLower h = d ∨ (ascii "." ++ d) <:+ ToLower mapLower h) ∧
      isAllowedDomain mapLower [ascii "example.com"] (ascii "api.example.com:443") = true ∧
      isAllowedDomain mapLower [ascii "example.com"] (ascii "evilexample.com:443") = false := by
  refine ⟨?_, rfl, rfl⟩
  have e : h ++ ascii ":" ++ p = h ++ colon :: p := by
    show h ++ [colon] ++ p = h ++ colon :: p
    simp
  unfold isAllowedDomain
  rw [e, SplitHostPort_host_port h p hh hp]
  exact isAllowedDomain_single mapLower h d

/-- Witness for C1: the theorem at `h = "Api.Example.com"`, `p = "443"`,
`d = "example.com"`. -/
theorem isAllowedDomain_iff_equal_or_subdomain_witness :
    (colon ∉ ascii "Api.Example.com" ∧ lbrack ∉ ascii "Api.Example.com" ∧
        rbrack ∉ ascii "Api.Example.com") ∧
      (colon ∉ ascii "443" ∧ lbrack ∉ ascii "443" ∧ rbrack ∉ ascii "443") ∧
      isAllowedDomain id [ascii "example.com"] (ascii "Api.Example.com" ++ ascii ":" ++ ascii "443")
        = true ∧
      (ascii "." ++ ascii "example.com") <:+ ToLower id (ascii "Api.Example.com") :=
  ⟨by decide, by decide, by decide,
    ((isAllowedDomain_iff_equal_or_subdomain id (ascii "Api.Example.com") (ascii "443")
      (ascii "example.com") (by decide) (by decide)).1.mp (by decide)).resolve_left (by decide)⟩

/-! ## Lemmas on the base64 tables -/

theorem decodeMap_encodeTable_fin : ∀ n : Fin 64, decodeMap (encodeTable n.val) = n.val := by
  decide

theorem decodeMap_encodeTable (n : Nat) (h : n < 64) : decodeMap (encodeTable n) = n :=
  decodeMap_encodeTable_fin ⟨n, h⟩

set_option maxRecDepth 100000 in
theorem decodeMap_valid : ∀ c : Byte, decodeMap c ≠ 255 →
    decodeMap c < 64 ∧ encodeTable (decodeMap c) = c := by
  decide

theorem decodeMap_LF : decodeMap LF = 255 := by decide
theorem decodeMap_CR : decodeMap CR = 255 := by decide
theorem decodeMap_padChar : decodeMap padChar = 255 := by decide

/-! ## Arithmetic of the 24-bit groups -/

theorem shl_or_of_lt (x y k : Nat) (h : y < 2 ^ k) : x <<< k ||| y = x * 2 ^ k + y := by
  rw [Nat.shiftLeft_eq, Nat.mul_comm x, ← Nat.mul_add_lt_is_or h]

theorem pack_sextets (d0 d1 d2 d3 : Nat) (h1 : d1 < 64) (h2 : d2 < 64) (h3 : d3 < 64) :
    d0 <<< 18 ||| d1 <<< 12 ||| d2 <<< 6 ||| d3 = d0 * 262144 + d1 * 4096 + d2 * 64 + d3 := by
  have e3 : d2 <<< 6 ||| d3 = d2 * 64 + d3 := by
    have := shl_or_of_lt d2 d3 6 (by omega)
    simpa using this
  have e2 : d1 <<< 12 ||| (d2 * 64 + d3) = d1 * 4096 + (d2 * 64 + d3) := by
    have := shl_or_of_lt d1 (d2 * 64 + d3) 12 (by omega)
    simpa using this
  have e1 : d0 <<< 18 ||| (d1 * 4096 + (d2 * 64 + d3)) = d0 * 262144 + (d1 * 4096 + (d2 * 64 + d3)) := by
    have := shl_or_of_lt d0 (d1 * 4096 + (d2 * 64 + d3)) 18 (by omega)
    simpa using this
  rw [Nat.or_assoc, Nat.or_assoc, e3, e2, e1]
  omega

theorem pack_bytes (a b c : Nat) (hb : b < 256) (hc : c < 256) :
    a <<< 16 ||| b <<< 8 ||| c = a * 65536 + b * 256 + c := by
  have e2 : b <<< 8 ||| c = b * 256 + c := by
    have := shl_or_of_lt b c 8 (by omega)
    simpa using this
  have e1 : a <<< 16 ||| (b * 256 + c) = a * 65536 + (b * 256 + c) := by
    have := shl_or_of_lt a (b * 256 + c) 16 (by omega)
    simpa using this
  rw [Nat.or_assoc, e2, e1]
  omega

theorem and_63 (x : Nat) : x &&& 63 = x % 64 := Nat.and_pow_two_sub_one_eq_mod x 6

theorem EncodeToString_three (a b c : Byte) (rest : GoString) :
    EncodeToString (a :: b :: c :: rest) =
      encodeTable (a.val / 4) :: encodeTable (a.val % 4 * 16 + b.val / 16) ::
        encodeTable (b.val % 16 * 4 + c.val / 64) :: encodeTable (c.val % 64) ::
          EncodeToString rest := by
  have ha := a.isLt
  have hb := b.isLt
  have hc := c.isLt
  simp only [EncodeToString, and_63, pack_bytes a.val b.val c.val hb hc,
    Nat.shiftRight_eq_div_pow]
  have e0 : (a.val * 65536 + b.val * 256 + c.val) / 2 ^ 18 % 64 = a.val / 4 := by omega
  have e1 : (a.val * 65536 + b.val * 256 + c.val) / 2 ^ 12 % 64 = a.val % 4 * 16 + b.val / 16 := by
    omega
  have e2 : (a.val * 65536 + b.val * 256 + c.val) / 2 ^ 6 % 64 = b.val % 16 * 4 + c.val / 64 := by
    omega
  have e3 : (a.val * 65536 + b.val * 256 + c.val) % 64 = c.val % 64 := by omega
  rw [e0, e1, e2, e3]

theorem EncodeToString_one (a : Byte) :
    EncodeToString [a] =
      [encodeTable (a.val / 4), encodeTable (a.val % 4 * 16), padChar, padChar] := by
  have ha := a.isLt
  simp only [EncodeToString, and_63, Nat.shiftRight_eq_div_pow, Nat.shiftLeft_eq]
  have e0 : a.val * 2 ^ 16 / 2 ^ 18 % 64 = a.val / 4 := by omega
  have e1 : a.val * 2 ^ 16 / 2 ^ 12 % 64 = a.val % 4 * 16 := by omega
  rw [e0, e1]

theorem EncodeToString_two (a b : Byte) :
    EncodeToString [a, b] =
      [encodeTable (a.val / 4), encodeTable (a.val % 4 * 16 + b.val / 16),
        encodeTable (b.val % 16 * 4), padChar] := by
  have ha := a.isLt
  have hb := b.isLt
  have e : a.val <<< 16 ||| b.val <<< 8 = a.val * 65536 + b.val * 256 + 0 := by
    have := pack_bytes a.val b.val 0 hb (by omega)
    simpa using this
  simp only [EncodeToString, and_63, e, Nat.shiftRight_eq_div_pow]
  have e0 : (a.val * 65536 + b.val * 256 + 0) / 2 ^ 18 % 64 = a.val / 4 := by omega
  have e1 : (a.val * 65536 + b.val * 256 + 0) / 2 ^ 12 % 64 = a.val % 4 * 16 + b.val / 16 := by
    omega
  have e2 : (a.val * 65536 + b.val * 256 + 0) / 2 ^ 6 % 64 = b.val % 16 * 4 := by omega
  rw [e0, e1, e2]

theorem ofNat_eq_of_mod (x y : Nat) (h : x % 256 = y % 256) :
    byteOfNat x = byteOfNat y := by
  apply Fin.ext
  simpa [byteOfNat] using h

theorem quantumBytes_four (d0 d1 d2 d3 : Nat) (h1 : d1 < 64) (h2 : d2 < 64)
    (h3 : d3 < 64) :
    quantumBytes [d0, d1, d2, d3] =
      [byteOfNat (d0 * 4 + d1 / 16), byteOfNat (d1 % 16 * 16 + d2 / 4),
        byteOfNat (d2 % 4 * 64 + d3)] := by
  simp only [quantumBytes, List.getD_cons_zero, List.getD_cons_succ, List.length_cons,
    List.length_nil, pack_sextets d0 d1 d2 d3 h1 h2 h3, Nat.shiftRight_eq_div_pow]
  simp only [List.take, List.cons.injEq, and_true]
  refine ⟨ofNat_eq_of_mod _ _ ?_, ofNat_eq_of_mod _ _ ?_, ofNat_eq_of_mod _ _ ?_⟩ <;> omega

theorem quantumBytes_three (d0 d1 d2 : Nat) (h1 : d1 < 64) (h2 : d2 < 64) :
    quantumBytes [d0, d1, d2] =
      [byteOfNat (d0 * 4 + d1 / 16), byteOfNat (d1 % 16 * 16 + d2 / 4)] := by
  have e := pack_sextets d0 d1 d2 0 h1 h2 (by omega)
  simp only [quantumBytes, List.getD_cons_zero, List.getD_cons_succ, List.length_cons,
    List.length_nil, List.getD_nil, e, Nat.shiftRight_eq_div_pow]
  simp only [List.take, List.cons.injEq, and_true]
  refine ⟨ofNat_eq_of_mod _ _ ?_, ofNat_eq_of_mod _ _ ?_⟩ <;> omega

theorem quantumBytes_two (d0 d1 : Nat) (h1 : d1 < 64) :
    quantumBytes [d0, d1] = [byteOfNat (d0 * 4 + d1 / 16)] := by
  have e := pack_sextets d0 d1 0 0 h1 (by omega) (by omega)
  simp only [quantumBytes, List.getD_cons_zero, List.getD_cons_succ, List.length_cons,
    List.length_nil, List.getD_nil, e, Nat.shiftRight_eq_div_pow]
  simp only [List.take, List.cons.injEq, and_true]
  exact ofNat_eq_of_mod _ _ (by omega)

/-! ## One step of the decoder, by the class of the byte read -/

theorem decodeFrom_valid (dbuf : List Nat) (c : Byte) (rest : GoString)
    (h : decodeMap c ≠ 255) :
    decodeFrom dbuf (c :: rest) =
      if dbuf.length = 3 then
        (decodeFrom [] rest).map (fun out => quantumBytes (dbuf ++ [decodeMap c]) ++ out)
      else decodeFrom (dbuf ++ [decodeMap c]) rest := by
  rw [decodeFrom]
  simp [h]

theorem decodeFrom_newline (dbuf : List Nat) (c : Byte) (rest : GoString)
    (h : c = LF ∨ c = CR) : decodeFrom dbuf (c :: rest) = decodeFrom dbuf rest := by
  have hm : decodeMap c = 255 := by
    rcases h with rfl | rfl
    · exact decodeMap_LF
    · exact decodeMap_CR
  rw [decodeFrom]
  simp [hm, h]

theorem decodeFrom_other (dbuf : List Nat) (c : Byte) (rest : GoString)
    (hm : decodeMap c = 255) (hn : ¬ (c = LF ∨ c = CR)) (hp : c ≠ padChar) :
    decodeFrom dbuf (c :: rest) = none := by
  rw [decodeFrom]
  simp [hm, hn, hp]

theorem padChar_not_newline : ¬ (padChar = LF ∨ padChar = CR) := by decide

theorem decodeFrom_pad (dbuf : List Nat) (rest : GoString) :
    decodeFrom dbuf (padChar :: rest) =
      if dbuf.length < 2 then none
      else if dbuf.length = 2 then
        match skipNewlines rest with
        | [] => none
        | c2 :: rest2 =>
          if c2 ≠ padChar then none
          else if skipNewlines rest2 = [] then some (quantumBytes dbuf) else none
      else if skipNewlines rest = [] then some (quantumBytes dbuf) else none := by
  rw [decodeFrom]
  simp [decodeMap_padChar, padChar_not_newline]

theorem skipNewlines_nil : skipNewlines [] = [] := rfl

theorem skipNewlines_cons_newline (c : Byte) (r : GoString) (h : c = LF ∨ c = CR) :
    skipNewlines (c :: r) = skipNewlines r := by
  unfold skipNewlines
  exact List.dropWhile_cons_of_pos (by simpa using h)

theorem skipNewlines_cons_other (c : Byte) (r : GoString) (h : ¬ (c = LF ∨ c = CR)) :
    skipNewlines (c :: r) = c :: r := by
  unfold skipNewlines
  exact List.dropWhile_cons_of_neg (by simpa using h)

theorem skipNewlines_pad (r : GoString) : skipNewlines (padChar :: r) = padChar :: r :=
  skipNewlines_cons_other padChar r padChar_not_newline

theorem decodeFrom_four (c0 c1 c2 c3 : Byte) (rest : GoString)
    (h0 : decodeMap c0 ≠ 255) (h1 : decodeMap c1 ≠ 255) (h2 : decodeMap c2 ≠ 255)
    (h3 : decodeMap c3 ≠ 255) :
    decodeFrom [] (c0 :: c1 :: c2 :: c3 :: rest) =
      (decodeFrom [] rest).map (fun out =>
        quantumBytes [decodeMap c0, decodeMap c1, decodeMap c2, decodeMap c3] ++ out) := by
  simp [decodeFrom_valid, h0, h1, h2, h3]

theorem decodeFrom_two_pad (c0 c1 : Byte) (h0 : decodeMap c0 ≠ 255) (h1 : decodeMap c1 ≠ 255) :
    decodeFrom [] [c0, c1, padChar, padChar] = some (quantumBytes [decodeMap c0, decodeMap c1]) := by
  simp [decodeFrom_valid, h0, h1, decodeFrom_pad, skipNewlines_pad, skipNewlines_nil]

theorem decodeFrom_three_pad (c0 c1 c2 : Byte) (h0 : decodeMap c0 ≠ 255)
    (h1 : decodeMap c1 ≠ 255) (h2 : decodeMap c2 ≠ 255) :
    decodeFrom [] [c0, c1, c2, padChar] =
      some (quantumBytes [decodeMap c0, decodeMap c1, decodeMap c2]) := by
  simp [decodeFrom_valid, h0, h1, h2, decodeFrom_pad, skipNewlines_nil]

theorem decodeMap_encodeTable_ne (n : Nat) (h : n < 64) : decodeMap (encodeTable n) ≠ 255 := by
  rw [decodeMap_encodeTable n h]; omega

/-- Decoding inverts encoding: `DecodeString (EncodeToString bs) = bs`. -/
theorem DecodeString_EncodeToString (bs : GoString) :
    DecodeString (EncodeToString bs) = some bs := by
  unfold DecodeString
  induction bs using EncodeToString.induct with
  | case1 => simp [EncodeToString, decodeFrom]
  | case2 a =>
    have ha := a.isLt
    rw [EncodeToString_one, decodeFrom_two_pad _ _ (decodeMap_encodeTable_ne _ (by omega))
      (decodeMap_encodeTable_ne _ (by omega)),
      decodeMap_encodeTable _ (by omega), decodeMap_encodeTable _ (by omega),
      quantumBytes_two _ _ (by omega)]
    simp only [Option.some.injEq, List.cons.injEq, and_true]
    apply Fin.ext
    simp only [byteOfNat]
    omega
  | case3 a b =>
    have ha := a.isLt
    have hb := b.isLt
    rw [EncodeToString_two, decodeFrom_three_pad _ _ _ (decodeMap_encodeTable_ne _ (by omega))
      (decodeMap_encodeTable_ne _ (by omega)) (decodeMap_encodeTable_ne _ (by omega)),
      decodeMap_encodeTable _ (by omega), decodeMap_encodeTable _ (by omega),
      decodeMap_encodeTable _ (by omega), quantumBytes_three _ _ _ (by omega) (by omega)]
    simp only [Option.some.injEq, List.cons.injEq, and_true]
    constructor <;> apply Fin.ext <;> simp only [byteOfNat] <;> omega
  | case4 a b c rest ih =>
    have ha := a.isLt
    have hb := b.isLt
    have hc := c.isLt
    rw [EncodeToString_three, decodeFrom_four _ _ _ _ _ (decodeMap_encodeTable_ne _ (by omega))
      (decodeMap_encodeTable_ne _ (by omega)) (decodeMap_encodeTable_ne _ (by omega))
      (decodeMap_encodeTable_ne _ (by omega)), ih,
      decodeMap_encodeTable _ (by omega), decodeMap_encodeTable _ (by omega),
      decodeMap_encodeTable _ (by omega), decodeMap_encodeTable _ (by omega),
      quantumBytes_four _ _ _ _ (by omega) (by omega) (by omega)]
    simp only [Option.map_some', Option.some.injEq, List.cons_append, List.nil_append,
      List.cons.injEq, and_true]
    refine ⟨?_, ?_, ?_⟩ <;> apply Fin.ext <;> simp only [byteOfNat] <;> omega

/-! ## Splitting at the first separator -/

theorem IndexByte_append_sep (x y : GoString) (c : Byte) (hx : c ∉ x) :
    IndexByte (x ++ c :: y) c = some x.length := by
  induction x with
  | nil => simp [IndexByte]
  | cons b t ih =>
    have hb : b ≠ c := fun e => hx (by simp [e])
    have ht : c ∉ t := fun e => hx (by simp [e])
    simp [IndexByte, hb, ih ht]

theorem IndexByte_some_spec (s : GoString) (c : Byte) (m : Nat) (h : IndexByte s c = some m) :
    s = s.take m ++ c :: s.drop (m + 1) ∧ c ∉ s.take m := by
  induction s generalizing m with
  | nil => simp [IndexByte] at h
  | cons b t ih =>
    by_cases hb : b = c
    · simp [IndexByte, hb] at h
      subst h
      simp [hb]
    · simp only [IndexByte, hb, if_false, Option.map_eq_some'] at h
      obtain ⟨k, hk, rfl⟩ := h
      obtain ⟨e1, e2⟩ := ih k hk
      have hc : ¬ c = b := fun e => hb e.symm
      refine ⟨?_, ?_⟩
      · simp only [List.take_succ_cons, List.drop_succ_cons, List.cons_append, List.cons.injEq,
          true_and]
        exact e1
      · simp only [List.take_succ_cons, List.mem_cons, not_or]
        exact ⟨hc, e2⟩

theorem SplitN_two (s : GoString) (c : Byte) :
    SplitN s c 2 =
      match IndexByte s c with
      | none => [s]
      | some m => [s.take m, s.drop (m + 1)] := by
  cases s with
  | nil => simp [SplitN, genSplit, genSplitLoop, IndexByte]
  | cons b t =>
    have h2 : ¬ ((2 : Int) < 0) := by omega
    have h3 : ((2 : Int).toNat) = 2 := rfl
    simp only [SplitN, genSplit, h2, h3, if_false, List.length_cons]
    have : ¬ (2 > t.length + 1 + 1) := by omega
    simp only [this, if_false, genSplitLoop]
    cases IndexByte (b :: t) c <;> simp

theorem SplitN_two_eq_pair (s u p : GoString) (c : Byte) :
    SplitN s c 2 = [u, p] ↔ s = u ++ c :: p ∧ c ∉ u := by
  rw [SplitN_two]
  constructor
  · intro h
    cases hi : IndexByte s c with
    | none => simp [hi] at h
    | some m =>
      rw [hi] at h
      simp only [List.cons.injEq, and_true] at h
      obtain ⟨e1, e2⟩ := IndexByte_some_spec s c m hi
      rw [h.1, h.2] at e1
      rw [h.1] at e2
      exact ⟨e1, e2⟩
  · rintro ⟨rfl, hu⟩
    rw [IndexByte_append_sep u p c hu]
    simp

theorem SplitN_two_of_not_mem (s : GoString) (c : Byte) (h : c ∉ s) : SplitN s c 2 = [s] := by
  rw [SplitN_two, (IndexByte_eq_none_iff s c).mpr h]

/-! ## The credential validator, characterised -/

theorem HasPrefix_append (pre s : GoString) : HasPrefix (pre ++ s) pre = true :=
  (HasPrefix_iff _ _).mpr ⟨s, rfl⟩

theorem TrimPrefix_append (pre s : GoString) : TrimPrefix (pre ++ s) pre = s := by
  simp [TrimPrefix, HasPrefix_append]

theorem pairCheck_iff (payload u p : GoString) :
    (decide ((SplitN payload colon 2).length = 2) &&
        decide ((SplitN payload colon 2)[0]? = some u) &&
        decide ((SplitN payload colon 2)[1]? = some p)) = true ↔
      payload = u ++ colon :: p ∧ colon ∉ u := by
  rw [← SplitN_two_eq_pair]
  simp only [Bool.and_eq_true, decide_eq_true_eq]
  constructor
  · rintro ⟨⟨hl, h0⟩, h1⟩
    match hs : SplitN payload colon 2, hl, h0, h1 with
    | [a, b], _, h0, h1 =>
      simp at h0 h1
      rw [h0, h1]
  · intro h
    rw [h]
    simp

/-- The exact condition under which `checkAuth` accepts a request: the
header value is `"Basic "` followed by a string that `DecodeString` decodes to
`authUser + ":" + authPass`, and `authUser` has no colon. -/
theorem checkAuth_iff_decodes (u p : GoString) (r : Request) :
    checkAuth u p r = true ↔
      colon ∉ u ∧ ∃ s, r.getProxyAuthorization = ascii "Basic " ++ s ∧
        DecodeString s = some (u ++ colon :: p) := by
  unfold checkAuth
  by_cases hp : HasPrefix r.getProxyAuthorization (ascii "Basic ") = true
  · obtain ⟨s, hs⟩ := (HasPrefix_iff _ _).mp hp
    simp only [hp, Bool.not_true, Bool.false_eq_true, if_false]
    rw [← hs, TrimPrefix_append]
    cases hd : DecodeString s with
    | none =>
      simp only [Bool.false_eq_true, false_iff, not_and, not_exists]
      intro _ s2 h2
      have : s2 = s := List.append_cancel_left h2.symm
      rw [this, hd]
      simp
    | some payload =>
      simp only []
      rw [pairCheck_iff]
      constructor
      · rintro ⟨rfl, hu⟩
        exact ⟨hu, s, rfl, hd⟩
      · rintro ⟨hu, s2, h2, h3⟩
        have : s2 = s := List.append_cancel_left h2.symm
        rw [this, hd] at h3
        exact ⟨Option.some.inj h3, hu⟩
  · have hp2 : HasPrefix r.getProxyAuthorization (ascii "Basic ") = false := by
      simpa using hp
    simp only [hp2, Bool.not_false, if_true, Bool.false_eq_true, false_iff, not_and, not_exists]
    intro _ s h2
    rw [h2, HasPrefix_append] at hp2
    cases hp2

/-! ## The decoder ignores newlines -/

theorem isNewline_iff (c : Byte) : isNewline c = true ↔ (c = LF ∨ c = CR) := by
  simp [isNewline]

theorem isNewline_eq_false_iff (c : Byte) : isNewline c = false ↔ ¬ (c = LF ∨ c = CR) := by
  rw [← isNewline_iff]; simp

theorem stripNewlines_nil : stripNewlines [] = [] := rfl

theorem stripNewlines_cons_newline (c : Byte) (r : GoString) (h : c = LF ∨ c = CR) :
    stripNewlines (c :: r) = stripNewlines r := by
  have : isNewline c = true := (isNewline_iff c).mpr h
  simp [stripNewlines, List.filter, this]

theorem stripNewlines_cons_other (c : Byte) (r : GoString) (h : ¬ (c = LF ∨ c = CR)) :
    stripNewlines (c :: r) = c :: stripNewlines r := by
  have : isNewline c = false := (isNewline_eq_false_iff c).mpr h
  simp [stripNewlines, List.filter, this]

theorem not_newline_of_valid (c : Byte) (h : decodeMap c ≠ 255) : ¬ (c = LF ∨ c = CR) := by
  rintro (rfl | rfl)
  · exact h decodeMap_LF
  · exact h decodeMap_CR

theorem skipNewlines_eq_nil_iff (r : GoString) : skipNewlines r = [] ↔ stripNewlines r = [] := by
  induction r with
  | nil => simp [skipNewlines, stripNewlines]
  | cons c t ih =>
    by_cases h : c = LF ∨ c = CR
    · rw [skipNewlines_cons_newline c t h, stripNewlines_cons_newline c t h, ih]
    · rw [skipNewlines_cons_other c t h, stripNewlines_cons_other c t h]
      simp

theorem skipNewlines_eq_cons (r : GoString) (c2 : Byte) (r2 : GoString)
    (h : skipNewlines r = c2 :: r2) :
    stripNewlines r = c2 :: stripNewlines r2 ∧ ¬ (c2 = LF ∨ c2 = CR) := by
  induction r with
  | nil => simp [skipNewlines] at h
  | cons c t ih =>
    by_cases hc : c = LF ∨ c = CR
    · rw [skipNewlines_cons_newline c t hc] at h
      rw [stripNewlines_cons_newline c t hc]
      exact ih h
    · rw [skipNewlines_cons_other c t hc] at h
      simp only [List.cons.injEq] at h
      obtain ⟨rfl, rfl⟩ := h
      exact ⟨stripNewlines_cons_other c t hc, hc⟩

theorem skipNewlines_stripNewlines_eq_nil_iff (r : GoString) :
    skipNewlines (stripNewlines r) = [] ↔ skipNewlines r = [] := by
  induction r with
  | nil => simp [skipNewlines, stripNewlines]
  | cons c t ih =>
    by_cases h : c = LF ∨ c = CR
    · rw [skipNewlines_cons_newline c t h, stripNewlines_cons_newline c t h, ih]
    · rw [skipNewlines_cons_other c t h, stripNewlines_cons_other c t h,
        skipNewlines_cons_other c _ h]
      simp

theorem byte_class (c : Byte) :
    decodeMap c ≠ 255 ∨ (c = LF ∨ c = CR) ∨ c = padChar ∨
      (decodeMap c = 255 ∧ ¬ (c = LF ∨ c = CR) ∧ c ≠ padChar) := by
  by_cases h1 : decodeMap c ≠ 255
  · exact Or.inl h1
  · by_cases h2 : c = LF ∨ c = CR
    · exact Or.inr (Or.inl h2)
    · by_cases h3 : c = padChar
      · exact Or.inr (Or.inr (Or.inl h3))
      · exact Or.inr (Or.inr (Or.inr ⟨by simpa using h1, h2, h3⟩))

theorem decodeFrom_stripNewlines (dbuf : List Nat) (s : GoString) :
    decodeFrom dbuf (stripNewlines s) = decodeFrom dbuf s := by
  induction s generalizing dbuf with
  | nil => rfl
  | cons c rest ih =>
    rcases byte_class c with hv | hn | rfl | ⟨hm, hn, hp⟩
    · rw [stripNewlines_cons_other c rest (not_newline_of_valid c hv),
        decodeFrom_valid _ _ _ hv, decodeFrom_valid _ _ _ hv, ih, ih]
    · rw [stripNewlines_cons_newline c rest hn, decodeFrom_newline _ _ _ hn, ih]
    · rw [stripNewlines_cons_other _ rest padChar_not_newline, decodeFrom_pad, decodeFrom_pad]
      have e1 : (skipNewlines (stripNewlines rest) = []) = (skipNewlines rest = []) :=
        propext (skipNewlines_stripNewlines_eq_nil_iff rest)
      simp only [e1]
      cases hs : skipNewlines rest with
      | nil =>
        rw [(skipNewlines_stripNewlines_eq_nil_iff rest).mpr hs]
      | cons c2 r2 =>
        obtain ⟨e2, hc2⟩ := skipNewlines_eq_cons rest c2 r2 hs
        rw [e2, skipNewlines_cons_other c2 _ hc2]
        have e3 : (skipNewlines (stripNewlines r2) = []) = (skipNewlines r2 = []) :=
          propext (skipNewlines_stripNewlines_eq_nil_iff r2)
        simp only [e3]
    · rw [stripNewlines_cons_other c rest hn, decodeFrom_other _ _ _ hm hn hp,
        decodeFrom_other _ _ _ hm hn hp]

/-! ## The strings that decode to given bytes -/

theorem val_ofNat (x : Nat) : (byteOfNat x).val = x % 256 := rfl

theorem encodeTable_ne_padChar (n : Nat) (h : n < 64) : encodeTable n ≠ padChar := by
  intro e
  have := decodeMap_encodeTable n h
  rw [e, decodeMap_padChar] at this
  omega

theorem valid_ne_padChar (c : Byte) (h : decodeMap c ≠ 255) : c ≠ padChar := by
  rintro rfl
  exact h decodeMap_padChar

/-- The shape of an encoding: empty, or at least four characters the first of
which is an alphabet character. -/
theorem EncodeToString_shape (bs : GoString) :
    EncodeToString bs = [] ∨
      ∃ c0 c1 c2 c3 rest, EncodeToString bs = c0 :: c1 :: c2 :: c3 :: rest ∧
        decodeMap c0 ≠ 255 := by
  induction bs using EncodeToString.induct with
  | case1 => exact Or.inl rfl
  | case2 a =>
    have ha := a.isLt
    exact Or.inr ⟨_, _, _, _, _, EncodeToString_one a, decodeMap_encodeTable_ne _ (by omega)⟩
  | case3 a b =>
    have ha := a.isLt
    exact Or.inr ⟨_, _, _, _, _, EncodeToString_two a b, decodeMap_encodeTable_ne _ (by omega)⟩
  | case4 a b c rest _ =>
    have ha := a.isLt
    exact Or.inr ⟨_, _, _, _, _, EncodeToString_three a b c rest,
      decodeMap_encodeTable_ne _ (by omega)⟩

theorem EncodeToString_ne_pads (bs : GoString) :
    EncodeToString bs ≠ [padChar, padChar] ∧ EncodeToString bs ≠ [padChar] := by
  rcases EncodeToString_shape bs with h | ⟨c0, c1, c2, c3, rest, h, _⟩ <;> rw [h] <;> simp

theorem eqUpToSlack_nil_right (e : GoString) : eqUpToSlack e [] = true ↔ e = [] := by
  cases e <;> simp [eqUpToSlack]

theorem eqUpToSlack_nil_left (t : GoString) : eqUpToSlack [] t = true ↔ t = [] := by
  cases t <;> simp [eqUpToSlack]

theorem eqUpToSlack_two_pad (c0 c1 : Byte) (t : GoString) (h0 : c0 ≠ padChar) :
    eqUpToSlack [c0, c1, padChar, padChar] t = true ↔
      ∃ x1, t = [c0, x1, padChar, padChar] ∧ sameUsedBits 16 c1 x1 = true := by
  constructor
  · intro h
    match t, h with
    | [x0, x1, x2, x3], h =>
      simp [eqUpToSlack, h0] at h
      obtain ⟨rfl, h1, rfl, rfl⟩ := h
      exact ⟨x1, rfl, h1⟩
    | [], h => simp [eqUpToSlack] at h
    | [_], h => simp [eqUpToSlack] at h
    | [_, _], h => simp [eqUpToSlack] at h
    | [_, _, _], h => simp [eqUpToSlack] at h
    | _ :: _ :: _ :: _ :: _ :: _, h => simp [eqUpToSlack] at h
  · rintro ⟨x1, rfl, h1⟩
    simp [eqUpToSlack, h0, h1]

theorem eqUpToSlack_three_pad (c0 c1 c2 : Byte) (t : GoString) (h1 : c1 ≠ padChar)
    (h2 : c2 ≠ padChar) :
    eqUpToSlack [c0, c1, c2, padChar] t = true ↔
      ∃ x2, t = [c0, c1, x2, padChar] ∧ sameUsedBits 4 c2 x2 = true := by
  constructor
  · intro h
    match t, h with
    | [x0, x1, x2, x3], h =>
      simp [eqUpToSlack, h1, h2] at h
      obtain ⟨rfl, rfl, h3, rfl⟩ := h
      exact ⟨x2, rfl, h3⟩
    | [], h => simp [eqUpToSlack] at h
    | [_], h => simp [eqUpToSlack] at h
    | [_, _], h => simp [eqUpToSlack] at h
    | [_, _, _], h => simp [eqUpToSlack] at h
    | _ :: _ :: _ :: _ :: _ :: _, h => simp [eqUpToSlack] at h
  · rintro ⟨x2, rfl, h3⟩
    simp [eqUpToSlack, h1, h2, h3]

theorem eqUpToSlack_four (c0 c1 c2 c3 : Byte) (bs t : GoString) (h1 : c1 ≠ padChar)
    (h2 : c2 ≠ padChar) (h3 : c3 ≠ padChar) :
    eqUpToSlack (c0 :: c1 :: c2 :: c3 :: EncodeToString bs) t = true ↔
      ∃ t2, t = c0 :: c1 :: c2 :: c3 :: t2 ∧ eqUpToSlack (EncodeToString bs) t2 = true := by
  obtain ⟨n1, n2⟩ := EncodeToString_ne_pads bs
  constructor
  · intro h
    match t, h with
    | x0 :: x1 :: x2 :: x3 :: t2, h =>
      simp [eqUpToSlack, h1, h2, h3, n1, n2] at h
      obtain ⟨rfl, rfl, rfl, rfl, h4⟩ := h
      exact ⟨t2, rfl, h4⟩
    | [], h => simp [eqUpToSlack] at h
    | [_], h => simp [eqUpToSlack] at h
    | [_, _], h => simp [eqUpToSlack] at h
    | [_, _, _], h => simp [eqUpToSlack] at h
  · rintro ⟨t2, rfl, h4⟩
    simp [eqUpToSlack, h1, h2, h3, n1, n2, h4]

theorem sameUsedBits_iff (k : Nat) (c1 c2 : Byte) :
    sameUsedBits k c1 c2 = true ↔ decodeMap c2 ≠ 255 ∧ decodeMap c2 / k = decodeMap c1 / k := by
  simp [sameUsedBits]

/-- A string equal to the encoding of `bs` up to the unused bits decodes to `bs`. -/
theorem decodeFrom_of_eqUpToSlack (bs t : GoString)
    (h : eqUpToSlack (EncodeToString bs) t = true) : decodeFrom [] t = some bs := by
  induction bs using EncodeToString.induct generalizing t with
  | case1 =>
    have : t = [] := (eqUpToSlack_nil_left t).mp (by simpa [EncodeToString] using h)
    subst this
    simp [decodeFrom]
  | case2 a =>
    have ha := a.isLt
    rw [EncodeToString_one] at h
    obtain ⟨x1, rfl, hx⟩ :=
      (eqUpToSlack_two_pad _ _ t (encodeTable_ne_padChar _ (by omega))).mp h
    obtain ⟨hv, hd⟩ := (sameUsedBits_iff _ _ _).mp hx
    rw [decodeMap_encodeTable _ (by omega)] at hd
    have hlt := (decodeMap_valid x1 hv).1
    rw [decodeFrom_two_pad _ _ (decodeMap_encodeTable_ne _ (by omega)) hv,
      decodeMap_encodeTable _ (by omega), quantumBytes_two _ _ hlt]
    simp only [Option.some.injEq, List.cons.injEq, and_true]
    apply Fin.ext
    rw [val_ofNat]
    omega
  | case3 a b =>
    have ha := a.isLt
    have hb := b.isLt
    rw [EncodeToString_two] at h
    obtain ⟨x2, rfl, hx⟩ :=
      (eqUpToSlack_three_pad _ _ _ t (encodeTable_ne_padChar _ (by omega))
        (encodeTable_ne_padChar _ (by omega))).mp h
    obtain ⟨hv, hd⟩ := (sameUsedBits_iff _ _ _).mp hx
    rw [decodeMap_encodeTable _ (by omega)] at hd
    have hlt := (decodeMap_valid x2 hv).1
    rw [decodeFrom_three_pad _ _ _ (decodeMap_encodeTable_ne _ (by omega))
      (decodeMap_encodeTable_ne _ (by omega)) hv,
      decodeMap_encodeTable _ (by omega), decodeMap_encodeTable _ (by omega),
      quantumBytes_three _ _ _ (by omega) hlt]
    simp only [Option.some.injEq, List.cons.injEq, and_true]
    constructor <;> apply Fin.ext <;> rw [val_ofNat] <;> omega
  | case4 a b c rest ih =>
    have ha := a.isLt
    have hb := b.isLt
    have hc := c.isLt
    rw [EncodeToString_three] at h
    obtain ⟨t2, rfl, h2⟩ :=
      (eqUpToSlack_four _ _ _ _ rest t (encodeTable_ne_padChar _ (by omega))
        (encodeTable_ne_padChar _ (by omega)) (encodeTable_ne_padChar _ (by omega))).mp h
    rw [decodeFrom_four _ _ _ _ _ (decodeMap_encodeTable_ne _ (by omega))
      (decodeMap_encodeTable_ne _ (by omega)) (decodeMap_encodeTable_ne _ (by omega))
      (decodeMap_encodeTable_ne _ (by omega)), ih t2 h2,
      decodeMap_encodeTable _ (by omega), decodeMap_encodeTable _ (by omega),
      decodeMap_encodeTable _ (by omega), decodeMap_encodeTable _ (by omega),
      quantumBytes_four _ _ _ _ (by omega) (by omega) (by omega)]
    simp only [Option.map_some', Option.some.injEq, List.cons_append, List.nil_append,
      List.cons.injEq, and_true]
    refine ⟨?_, ?_, ?_⟩ <;> apply Fin.ext <;> rw [val_ofNat] <;> omega

theorem stripNewlines_eq_self (t : GoString) (hn : ∀ c ∈ t, ¬ (c = LF ∨ c = CR)) :
    stripNewlines t = t := by
  unfold stripNewlines
  rw [List.filter_eq_self]
  intro c hc
  simpa [isNewline] using hn c hc

theorem mem_stripNewlines (s : GoString) : ∀ c ∈ stripNewlines s, ¬ (c = LF ∨ c = CR) := by
  intro c hc
  unfold stripNewlines at hc
  have := (List.mem_filter.mp hc).2
  simpa [isNewline] using this

theorem skipNewlines_eq_self (t : GoString) (hn : ∀ c ∈ t, ¬ (c = LF ∨ c = CR)) :
    skipNewlines t = t := by
  cases t with
  | nil => rfl
  | cons c r => exact skipNewlines_cons_other c r (hn c (by simp))

/-- A successful decoding reads a whole number of four-character quanta,
newlines not counted. -/
theorem decodeFrom_length (dbuf : List Nat) (t bs : GoString) (hd : dbuf.length ≤ 3)
    (h : decodeFrom dbuf t = some bs) : (dbuf.length + (stripNewlines t).length) % 4 = 0 := by
  induction t generalizing dbuf bs with
  | nil =>
    simp only [decodeFrom] at h
    by_cases h0 : dbuf.length = 0
    · simp [h0, stripNewlines]
    · simp [h0] at h
  | cons c rest ih =>
    rcases byte_class c with hv | hn | rfl | ⟨hm, hn, hp⟩
    · rw [decodeFrom_valid _ _ _ hv] at h
      rw [stripNewlines_cons_other c rest (not_newline_of_valid c hv)]
      by_cases h3 : dbuf.length = 3
      · rw [if_pos h3] at h
        cases hr : decodeFrom [] rest with
        | none => rw [hr] at h; simp at h
        | some bs2 =>
          have := ih [] bs2 (by simp) hr
          simp only [List.length_nil, List.length_cons] at this ⊢
          omega
      · rw [if_neg h3] at h
        have := ih (dbuf ++ [decodeMap c]) bs (by simp; omega) h
        simp only [List.length_append, List.length_cons, List.length_nil] at this ⊢
        omega
    · rw [decodeFrom_newline _ _ _ hn] at h
      rw [stripNewlines_cons_newline c rest hn]
      exact ih dbuf bs hd h
    · rw [decodeFrom_pad] at h
      rw [stripNewlines_cons_other _ rest padChar_not_newline]
      by_cases h2 : dbuf.length < 2
      · simp [h2] at h
      · rw [if_neg h2] at h
        by_cases h3 : dbuf.length = 2
        · rw [if_pos h3] at h
          cases hs : skipNewlines rest with
          | nil => rw [hs] at h; simp at h
          | cons c2 r2 =>
            rw [hs] at h
            simp only [] at h
            by_cases hc2 : c2 = padChar
            · by_cases hr2 : skipNewlines r2 = []
              · obtain ⟨e, _⟩ := skipNewlines_eq_cons rest c2 r2 hs
                rw [e, (skipNewlines_eq_nil_iff r2).mp hr2]
                simp [h3]
              · simp [hc2, hr2] at h
            · simp [hc2] at h
        · rw [if_neg h3] at h
          by_cases hr : skipNewlines rest = []
          · rw [(skipNewlines_eq_nil_iff rest).mp hr]
            simp only [List.length_cons, List.length_nil]
            omega
          · simp [hr] at h
    · rw [decodeFrom_other _ _ _ hm hn hp] at h
      cases h

theorem decodeFrom_head (dbuf : List Nat) (c : Byte) (rest bs : GoString)
    (hn : ¬ (c = LF ∨ c = CR)) (h : decodeFrom dbuf (c :: rest) = some bs) :
    decodeMap c ≠ 255 ∨ (c = padChar ∧ 2 ≤ dbuf.length) := by
  rcases byte_class c with hv | hn2 | rfl | ⟨hm, hn3, hp⟩
  · exact Or.inl hv
  · exact absurd hn2 hn
  · right
    refine ⟨rfl, ?_⟩
    rw [decodeFrom_pad] at h
    by_contra hlt
    have : dbuf.length < 2 := by omega
    simp [this] at h
  · rw [decodeFrom_other _ _ _ hm hn3 hp] at h
    cases h

theorem EncodeToString_quantum_four (c0 c1 c2 c3 : Byte) (bs : GoString)
    (h0 : decodeMap c0 ≠ 255) (h1 : decodeMap c1 ≠ 255) (h2 : decodeMap c2 ≠ 255)
    (h3 : decodeMap c3 ≠ 255) :
    EncodeToString
        (quantumBytes [decodeMap c0, decodeMap c1, decodeMap c2, decodeMap c3] ++ bs) =
      c0 :: c1 :: c2 :: c3 :: EncodeToString bs := by
  obtain ⟨l0, e0⟩ := decodeMap_valid c0 h0
  obtain ⟨l1, e1⟩ := decodeMap_valid c1 h1
  obtain ⟨l2, e2⟩ := decodeMap_valid c2 h2
  obtain ⟨l3, e3⟩ := decodeMap_valid c3 h3
  rw [quantumBytes_four _ _ _ _ l1 l2 l3]
  simp only [List.cons_append, List.nil_append, EncodeToString_three, val_ofNat]
  have a0 : (decodeMap c0 * 4 + decodeMap c1 / 16) % 256 / 4 = decodeMap c0 := by omega
  have a1 : (decodeMap c0 * 4 + decodeMap c1 / 16) % 256 % 4 * 16 +
      (decodeMap c1 % 16 * 16 + decodeMap c2 / 4) % 256 / 16 = decodeMap c1 := by omega
  have a2 : (decodeMap c1 % 16 * 16 + decodeMap c2 / 4) % 256 % 16 * 4 +
      (decodeMap c2 % 4 * 64 + decodeMap c3) % 256 / 64 = decodeMap c2 := by omega
  have a3 : (decodeMap c2 % 4 * 64 + decodeMap c3) % 256 % 64 = decodeMap c3 := by omega
  rw [a0, a1, a2, a3, e0, e1, e2, e3]

/-- A newline-free string that decodes to `bs` equals the encoding of `bs` up
to the unused bits. -/
theorem eqUpToSlack_of_decodeFrom : ∀ (t bs : GoString),
    (∀ c ∈ t, ¬ (c = LF ∨ c = CR)) → decodeFrom [] t = some bs →
      eqUpToSlack (EncodeToString bs) t = true
  | [], bs, _, h => by
    simp [decodeFrom] at h
    subst h
    rfl
  | [c0], bs, hn, h => by
    have := decodeFrom_length [] _ bs (by simp) h
    rw [stripNewlines_eq_self _ hn] at this
    simp at this
  | [c0, c1], bs, hn, h => by
    have := decodeFrom_length [] _ bs (by simp) h
    rw [stripNewlines_eq_self _ hn] at this
    simp at this
  | [c0, c1, c2], bs, hn, h => by
    have := decodeFrom_length [] _ bs (by simp) h
    rw [stripNewlines_eq_self _ hn] at this
    simp at this
  | c0 :: c1 :: c2 :: c3 :: rest, bs, hn, h => by
    have n0 : ¬ (c0 = LF ∨ c0 = CR) := hn c0 (by simp)
    have n1 : ¬ (c1 = LF ∨ c1 = CR) := hn c1 (by simp)
    have n2 : ¬ (c2 = LF ∨ c2 = CR) := hn c2 (by simp)
    have n3 : ¬ (c3 = LF ∨ c3 = CR) := hn c3 (by simp)
    have nr : ∀ c ∈ rest, ¬ (c = LF ∨ c = CR) := fun c hc => hn c (by simp [hc])
    have v0 : decodeMap c0 ≠ 255 := by
      rcases decodeFrom_head [] c0 _ bs n0 h with hv | ⟨_, hl⟩
      · exact hv
      · simp at hl
    rw [decodeFrom_valid _ _ _ v0] at h
    simp only [List.length_nil, List.nil_append] at h
    rw [if_neg (by omega)] at h
    have v1 : decodeMap c1 ≠ 255 := by
      rcases decodeFrom_head _ c1 _ bs n1 h with hv | ⟨_, hl⟩
      · exact hv
      · simp at hl
    rw [decodeFrom_valid _ _ _ v1] at h
    simp only [List.length_cons, List.length_nil, List.singleton_append] at h
    rw [if_neg (by omega)] at h
    obtain ⟨l0, e0⟩ := decodeMap_valid c0 v0
    obtain ⟨l1, e1⟩ := decodeMap_valid c1 v1
    rcases decodeFrom_head _ c2 _ bs n2 h with v2 | ⟨rfl, _⟩
    · rw [decodeFrom_valid _ _ _ v2] at h
      simp only [List.length_cons, List.length_nil, List.cons_append, List.nil_append] at h
      rw [if_neg (by omega)] at h
      obtain ⟨l2, e2⟩ := decodeMap_valid c2 v2
      rcases decodeFrom_head _ c3 _ bs n3 h with v3 | ⟨rfl, _⟩
      · rw [decodeFrom_valid _ _ _ v3] at h
        simp only [List.length_cons, List.length_nil, List.cons_append, List.nil_append] at h
        rw [if_pos trivial] at h
        cases hr : decodeFrom [] rest with
        | none => rw [hr] at h; simp at h
        | some bs2 =>
          rw [hr] at h
          simp only [Option.map_some', Option.some.injEq] at h
          have ih := eqUpToSlack_of_decodeFrom rest bs2 nr hr
          rw [← h, EncodeToString_quantum_four c0 c1 c2 c3 bs2 v0 v1 v2 v3]
          exact (eqUpToSlack_four _ _ _ _ bs2 _ (valid_ne_padChar c1 v1)
            (valid_ne_padChar c2 v2) (valid_ne_padChar c3 v3)).mpr ⟨rest, rfl, ih⟩
      · rw [decodeFrom_pad] at h
        simp only [List.length_cons, List.length_nil] at h
        rw [if_neg (by omega), if_neg (by omega), skipNewlines_eq_self rest nr] at h
        by_cases hr : rest = []
        · subst hr
          simp only [if_true, Option.some.injEq] at h
          rw [← h, quantumBytes_three _ _ _ l1 l2, EncodeToString_two]
          simp only [val_ofNat]
          have a0 : (decodeMap c0 * 4 + decodeMap c1 / 16) % 256 / 4 = decodeMap c0 := by omega
          have a1 : (decodeMap c0 * 4 + decodeMap c1 / 16) % 256 % 4 * 16 +
              (decodeMap c1 % 16 * 16 + decodeMap c2 / 4) % 256 / 16 = decodeMap c1 := by
            omega
          rw [a0, a1, e0, e1]
          refine (eqUpToSlack_three_pad _ _ _ _ (valid_ne_padChar c1 v1)
            (encodeTable_ne_padChar _ (by omega))).mpr ⟨c2, rfl, ?_⟩
          rw [sameUsedBits_iff, decodeMap_encodeTable _ (by omega)]
          exact ⟨v2, by omega⟩
        · simp [hr] at h
    · rw [decodeFrom_pad] at h
      simp only [List.length_cons, List.length_nil] at h
      rw [if_neg (by omega), if_pos trivial, skipNewlines_cons_other c3 rest n3] at h
      simp only [] at h
      by_cases hc3 : c3 = padChar
      · subst hc3
        rw [skipNewlines_eq_self rest nr] at h
        by_cases hr : rest = []
        · subst hr
          simp only [ne_eq, not_true_eq_false, if_false, if_true, Option.some.injEq] at h
          rw [← h, quantumBytes_two _ _ l1, EncodeToString_one]
          simp only [val_ofNat]
          have a0 : (decodeMap c0 * 4 + decodeMap c1 / 16) % 256 / 4 = decodeMap c0 := by omega
          rw [a0, e0]
          refine (eqUpToSlack_two_pad _ _ _ (valid_ne_padChar c0 v0)).mpr ⟨c1, rfl, ?_⟩
          rw [sameUsedBits_iff, decodeMap_encodeTable _ (by omega)]
          exact ⟨v1, by omega⟩
        · simp [hr] at h
      · simp [hc3] at h

/-- The strings that `DecodeString` decodes to `bs` are exactly those which,
with `'\r'` and `'\n'` removed, equal the encoding of `bs` up to the unused
bits of the last character before the padding. -/
theorem DecodeString_eq_some_iff (s bs : GoString) :
    DecodeString s = some bs ↔ eqUpToSlack (EncodeToString bs) (stripNewlines s) = true := by
  unfold DecodeString
  rw [← decodeFrom_stripNewlines]
  constructor
  · exact eqUpToSlack_of_decodeFrom _ bs (mem_stripNewlines s)
  · exact decodeFrom_of_eqUpToSlack bs _

/-! ## Flipping one bit of an encoding -/

set_option maxRecDepth 100000 in
theorem flipBit_ne : ∀ (c : Byte) (k : Fin 8), flipBit c k ≠ c := by
  decide

theorem eqUpToSlack_length (e t : GoString) (h : eqUpToSlack e t = true) :
    e.length = t.length := by
  induction e generalizing t with
  | nil =>
    rw [(eqUpToSlack_nil_left t).mp h]
  | cons c e ih =>
    cases t with
    | nil => simp [eqUpToSlack] at h
    | cons c2 t =>
      rw [eqUpToSlack] at h
      simp only [Bool.and_eq_true] at h
      simp [ih t h.2]

theorem EncodeToString_not_newline (bs : GoString) :
    ∀ c ∈ EncodeToString bs, ¬ (c = LF ∨ c = CR) := by
  induction bs using EncodeToString.induct with
  | case1 => simp [EncodeToString]
  | case2 a =>
    have ha := a.isLt
    rw [EncodeToString_one]
    intro c hc
    simp only [List.mem_cons, List.mem_singleton, List.not_mem_nil, or_false] at hc
    rcases hc with rfl | rfl | rfl | rfl
    · exact not_newline_of_valid _ (decodeMap_encodeTable_ne _ (by omega))
    · exact not_newline_of_valid _ (decodeMap_encodeTable_ne _ (by omega))
    · exact padChar_not_newline
    · exact padChar_not_newline
  | case3 a b =>
    have ha := a.isLt
    have hb := b.isLt
    rw [EncodeToString_two]
    intro c hc
    simp only [List.mem_cons, List.mem_singleton, List.not_mem_nil, or_false] at hc
    rcases hc with rfl | rfl | rfl | rfl
    · exact not_newline_of_valid _ (decodeMap_encodeTable_ne _ (by omega))
    · exact not_newline_of_valid _ (decodeMap_encodeTable_ne _ (by omega))
    · exact not_newline_of_valid _ (decodeMap_encodeTable_ne _ (by omega))
    · exact padChar_not_newline
  | case4 a b c rest ih =>
    have ha := a.isLt
    have hb := b.isLt
    have hc := c.isLt
    rw [EncodeToString_three]
    intro x hx
    simp only [List.mem_cons] at hx
    rcases hx with rfl | rfl | rfl | rfl | hx
    · exact not_newline_of_valid _ (decodeMap_encodeTable_ne _ (by omega))
    · exact not_newline_of_valid _ (decodeMap_encodeTable_ne _ (by omega))
    · exact not_newline_of_valid _ (decodeMap_encodeTable_ne _ (by omega))
    · exact not_newline_of_valid _ (decodeMap_encodeTable_ne _ (by omega))
    · exact ih x hx

theorem eqUpToSlack_EncodeToString_self (bs : GoString) :
    eqUpToSlack (EncodeToString bs) (EncodeToString bs) = true := by
  have h := (DecodeString_eq_some_iff (EncodeToString bs) bs).mp (DecodeString_EncodeToString bs)
  rwa [stripNewlines_eq_self _ (EncodeToString_not_newline bs)] at h

theorem sameUsedBits_not_newline (n : Nat) (c c2 : Byte) (h : sameUsedBits n c c2 = true) :
    ¬ (c2 = LF ∨ c2 = CR) :=
  not_newline_of_valid c2 ((sameUsedBits_iff n c c2).mp h).1

/-- For a newline-free string `e` that is equal to itself up to slack (as
every encoding is), the string with one bit flipped is, after removal of
newlines, equal to `e` up to slack exactly when the flip falls in the slack. -/
theorem eqUpToSlack_flipBitAt (e : GoString) (i : Nat) (k : Fin 8)
    (hn : ∀ c ∈ e, ¬ (c = LF ∨ c = CR)) (hr : eqUpToSlack e e = true) (hi : i < e.length) :
    eqUpToSlack e (stripNewlines (flipBitAt e i k)) = true ↔ flipInSlack e i k = true := by
  induction e generalizing i with
  | nil => simp at hi
  | cons c e ih =>
    have hne : ∀ x ∈ e, ¬ (x = LF ∨ x = CR) := fun x hx => hn x (by simp [hx])
    have hc : ¬ (c = LF ∨ c = CR) := hn c (by simp)
    rw [eqUpToSlack] at hr
    simp only [Bool.and_eq_true] at hr
    obtain ⟨hr1, hr2⟩ := hr
    cases i with
    | zero =>
      have hf := flipBit_ne c k
      have hf2 : ¬ c = flipBit c k := fun h => hf h.symm
      simp only [flipBitAt, flipInSlack, List.drop_zero]
      by_cases hnl : flipBit c k = LF ∨ flipBit c k = CR
      · rw [stripNewlines_cons_newline _ _ hnl, stripNewlines_eq_self e hne]
        constructor
        · intro h
          have := eqUpToSlack_length _ _ h
          simp at this
        · intro h
          exfalso
          match e, h with
          | [p1, p2], h =>
            simp only [Bool.and_eq_true] at h
            exact sameUsedBits_not_newline _ _ _ h.2 hnl
          | [p1], h =>
            simp only [Bool.and_eq_true] at h
            exact sameUsedBits_not_newline _ _ _ h.2 hnl
      · rw [stripNewlines_cons_other _ _ hnl, stripNewlines_eq_self e hne, eqUpToSlack]
        simp only [hr2, Bool.and_true]
        match e with
        | [] => simp [hf2]
        | [p1] =>
          by_cases h1 : p1 = padChar ∧ c ≠ padChar
          · simp [h1.1, h1.2]
          · have h1b : ¬ ([p1] = [padChar] ∧ c ≠ padChar) := by simpa using h1
            rw [if_neg (by simp), if_neg h1b]
            simp only [decide_eq_true_eq, hf2, false_iff, Bool.and_eq_true, not_and]
            intro a _
            exact absurd a h1
        | [p1, p2] =>
          by_cases h1 : p1 = padChar ∧ p2 = padChar
          · simp [h1.1, h1.2]
          · have h1b : ¬ ([p1, p2] = [padChar, padChar]) := by simpa using h1
            rw [if_neg h1b, if_neg (by simp)]
            simp only [decide_eq_true_eq, hf2, false_iff, Bool.and_eq_true, not_and]
            intro a _
            exact absurd a h1
        | _ :: _ :: _ :: _ => simp [hf2]
    | succ i =>
      have hi2 : i < e.length := by simpa using hi
      simp only [flipBitAt, flipInSlack, List.drop_succ_cons]
      rw [stripNewlines_cons_other _ _ hc, eqUpToSlack]
      simp only [hr1, Bool.true_and]
      exact ih i hne hr2 hi2

theorem padChar_not_mem_EncodeToString (bs : GoString) (h : bs.length % 3 = 0) :
    padChar ∉ EncodeToString bs := by
  induction bs using EncodeToString.induct with
  | case1 => simp [EncodeToString]
  | case2 a => simp at h
  | case3 a b => simp at h
  | case4 a b c rest ih =>
    have ha := a.isLt
    have hb := b.isLt
    have hc := c.isLt
    have hrest : rest.length % 3 = 0 := by
      simp only [List.length_cons] at h
      omega
    rw [EncodeToString_three]
    simp only [List.mem_cons, not_or]
    exact ⟨fun e => encodeTable_ne_padChar _ (by omega) e.symm,
      fun e => encodeTable_ne_padChar _ (by omega) e.symm,
      fun e => encodeTable_ne_padChar _ (by omega) e.symm,
      fun e => encodeTable_ne_padChar _ (by omega) e.symm, ih hrest⟩

theorem flipInSlack_drop (e : GoString) (i : Nat) (k : Fin 8) (h : flipInSlack e i k = true) :
    (∃ c, e.drop i = [c, padChar, padChar]) ∨ (∃ c, e.drop i = [c, padChar]) := by
  unfold flipInSlack at h
  match hd : e.drop i, h with
  | [c, p1, p2], h =>
    simp only [Bool.and_eq_true, decide_eq_true_eq] at h
    obtain ⟨⟨rfl, rfl⟩, _⟩ := h
    exact Or.inl ⟨c, rfl⟩
  | [c, p1], h =>
    simp only [Bool.and_eq_true, decide_eq_true_eq] at h
    obtain ⟨⟨rfl, _⟩, _⟩ := h
    exact Or.inr ⟨c, rfl⟩

theorem flipInSlack_padChar_mem (e : GoString) (i : Nat) (k : Fin 8)
    (h : flipInSlack e i k = true) : padChar ∈ e := by
  rcases flipInSlack_drop e i k h with ⟨c, hc⟩ | ⟨c, hc⟩
  · exact List.mem_of_mem_drop (by rw [hc]; simp)
  · exact List.mem_of_mem_drop (by rw [hc]; simp)

theorem flipInSlack_index (e : GoString) (i : Nat) (k : Fin 8)
    (h : flipInSlack e i k = true) : i + 3 = e.length ∨ i + 2 = e.length := by
  rcases flipInSlack_drop e i k h with ⟨c, hc⟩ | ⟨c, hc⟩
  · have := congrArg List.length hc
    simp only [List.length_drop, List.length_cons, List.length_nil] at this
    omega
  · have := congrArg List.length hc
    simp only [List.length_drop, List.length_cons, List.length_nil] at this
    omega

theorem ascii_colon_append (u p : GoString) : u ++ ascii ":" ++ p = u ++ colon :: p := by
  show u ++ [colon] ++ p = u ++ colon :: p
  simp

/-- The exact condition under which `checkAuth` accepts a request, in terms
of the encoding of the configured credentials. -/
theorem checkAuth_iff_slack (u p : GoString) (r : Request) :
    checkAuth u p r = true ↔
      colon ∉ u ∧ ∃ s, r.getProxyAuthorization = ascii "Basic " ++ s ∧
        eqUpToSlack (EncodeToString (u ++ ascii ":" ++ p)) (stripNewlines s) = true := by
  rw [checkAuth_iff_decodes, ascii_colon_append]
  constructor
  · rintro ⟨hu, s, h1, h2⟩
    exact ⟨hu, s, h1, (DecodeString_eq_some_iff s _).mp h2⟩
  · rintro ⟨hu, s, h1, h2⟩
    exact ⟨hu, s, h1, (DecodeString_eq_some_iff s _).mpr h2⟩

theorem checkAuth_canonical (u p : GoString) (r : Request) (hu : colon ∉ u)
    (hr : r.getProxyAuthorization = ascii "Basic " ++ EncodeToString (u ++ ascii ":" ++ p)) :
    checkAuth u p r = true := by
  rw [checkAuth_iff_decodes]
  refine ⟨hu, _, hr, ?_⟩
  rw [ascii_colon_append]
  exact DecodeString_EncodeToString _

theorem checkAuth_eq_false_of_not (u p : GoString) (r : Request)
    (h : ¬ (colon ∉ u ∧ ∃ s, r.getProxyAuthorization = ascii "Basic " ++ s ∧
        DecodeString s = some (u ++ colon :: p))) : checkAuth u p r = false := by
  rw [← checkAuth_iff_decodes] at h
  simpa using h

/-! ## The credential validator: claims -/

/-- C2, counterexample. With the credentials `u` / `pw`, the header
`Basic dTpwdx==` is accepted although it is not `"Basic " + base64("u:pw")`
(which is `Basic dTpwdw==`); and with a user name that contains a colon the
exact header `"Basic " + base64(user:pass)` is rejected. -/
theorem checkAuth_not_iff_exact_header :
    (checkAuth (ascii "u") (ascii "pw") (withAuth (ascii "Basic dTpwdx==")) = true ∧
        ascii "Basic dTpwdx==" ≠
          ascii "Basic " ++ EncodeToString (ascii "u" ++ ascii ":" ++ ascii "pw")) ∧
      checkAuth (ascii "a:b") (ascii "c")
        (withAuth (ascii "Basic " ++ EncodeToString (ascii "a:b" ++ ascii ":" ++ ascii "c")))
          = false := by
  decide

/-- C2, amended. For every configured pair and every request, `checkAuth`
is true exactly when `authUser` has no colon and the `Proxy-Authorization`
value is `"Basic "` followed by a string that, with its `'\r'` and `'\n'` bytes
removed, equals the standard base64 encoding of `authUser + ":" + authPass` up
to the unused low-order bits of the last character before the padding. In
particular, when `authUser` has no colon, the exact header
`"Basic " + base64(authUser + ":" + authPass)` is accepted. -/
theorem checkAuth_iff_header (authUser authPass : GoString) (r : Request) :
    (checkAuth authUser authPass r = true ↔
        colon ∉ authUser ∧ ∃ s, r.getProxyAuthorization = ascii "Basic " ++ s ∧
          eqUpToSlack (EncodeToString (authUser ++ ascii ":" ++ authPass)) (stripNewlines s)
            = true) ∧
      (colon ∉ authUser →
        r.getProxyAuthorization =
          ascii "Basic " ++ EncodeToString (authUser ++ ascii ":" ++ authPass) →
        checkAuth authUser authPass r = true) :=
  ⟨checkAuth_iff_slack authUser authPass r, checkAuth_canonical authUser authPass r⟩

/-- Witness for C2 (amended): the credentials `u` / `pw` and the header
`Basic dTpwdw==`. -/
theorem checkAuth_iff_header_witness :
    colon ∉ ascii "u" ∧
      (withAuth (ascii "Basic dTpwdw==")).getProxyAuthorization =
        ascii "Basic " ++ EncodeToString (ascii "u" ++ ascii ":" ++ ascii "pw") ∧
      checkAuth (ascii "u") (ascii "pw") (withAuth (ascii "Basic dTpwdw==")) = true :=
  ⟨by decide, by decide,
    (checkAuth_iff_header (ascii "u") (ascii "pw") (withAuth (ascii "Basic dTpwdw=="))).2
      (by decide) (by decide)⟩

/-- C8. The decoded payload is split at its first colon only. For a
configured user without a colon and any configured password (colons
allowed), `user + ":" + pass` splits into exactly `[user, pass]` and the
header `"Basic " + base64(user + ":" + pass)` is accepted; and a header whose
payload decodes to `x + ":" + y`, with that colon the first one, is rejected
as soon as `y` differs from the configured password. -/
theorem checkAuth_splits_at_first_colon (authUser authPass : GoString)
    (hu : colon ∉ authUser) :
    SplitN (authUser ++ ascii ":" ++ authPass) colon 2 = [authUser, authPass] ∧
      (∀ r : Request,
        r.getProxyAuthorization =
          ascii "Basic " ++ EncodeToString (authUser ++ ascii ":" ++ authPass) →
        checkAuth authUser authPass r = true) ∧
      (∀ (r : Request) (s x y : GoString),
        r.getProxyAuthorization = ascii "Basic " ++ s →
        DecodeString s = some (x ++ ascii ":" ++ y) → colon ∉ x → y ≠ authPass →
        checkAuth authUser authPass r = false) := by
  refine ⟨?_, ?_, ?_⟩
  · rw [ascii_colon_append]
    exact (SplitN_two_eq_pair _ _ _ _).mpr ⟨rfl, hu⟩
  · intro r hr
    exact checkAuth_canonical authUser authPass r hu hr
  · intro r s x y hr hd hx hy
    apply checkAuth_eq_false_of_not
    rintro ⟨_, s2, h2, h3⟩
    have hs : s2 = s := List.append_cancel_left (h2.symm.trans hr)
    rw [hs, hd, ascii_colon_append] at h3
    have h4 : x ++ colon :: y = authUser ++ colon :: authPass := Option.some.inj h3
    have h5 := (SplitN_two_eq_pair (x ++ colon :: y) x y colon).mpr ⟨rfl, hx⟩
    have h6 := (SplitN_two_eq_pair (x ++ colon :: y) authUser authPass colon).mpr ⟨h4, hu⟩
    rw [h5] at h6
    simp only [List.cons.injEq, and_true] at h6
    exact hy h6.2

/-- Witness for C8: the user `u` and the password `p:w`, which contains a colon. -/
theorem checkAuth_splits_at_first_colon_witness :
    colon ∉ ascii "u" ∧ colon ∈ ascii "p:w" ∧
      SplitN (ascii "u" ++ ascii ":" ++ ascii "p:w") colon 2 = [ascii "u", ascii "p:w"] :=
  ⟨by decide, by decide,
    (checkAuth_splits_at_first_colon (ascii "u") (ascii "p:w") (by decide)).1⟩

/-- C9. Whatever the configured pair, `checkAuth` is false when the
`Proxy-Authorization` header is absent or empty, when its value does not begin
with the exact bytes `Basic `, when what follows `Basic ` is rejected by the
standard base64 decoder, and when it decodes to a payload without a colon. -/
theorem checkAuth_rejects_malformed (authUser authPass : GoString) (r : Request) :
    (r.proxyAuthorization = [] → checkAuth authUser authPass r = false) ∧
      (r.getProxyAuthorization = [] → checkAuth authUser authPass r = false) ∧
      (¬ (ascii "Basic " <+: r.getProxyAuthorization) →
        checkAuth authUser authPass r = false) ∧
      (∀ s, r.getProxyAuthorization = ascii "Basic " ++ s → DecodeString s = none →
        checkAuth authUser authPass r = false) ∧
      (∀ s payload, r.getProxyAuthorization = ascii "Basic " ++ s →
        DecodeString s = some payload → colon ∉ payload →
        checkAuth authUser authPass r = false) := by
  have hempty : r.getProxyAuthorization = [] → checkAuth authUser authPass r = false := by
    intro h
    apply checkAuth_eq_false_of_not
    rintro ⟨_, s, h2, _⟩
    rw [h] at h2
    have := congrArg List.length h2
    simp [ascii] at this
  refine ⟨?_, hempty, ?_, ?_, ?_⟩
  · intro h
    apply hempty
    simp [Request.getProxyAuthorization, h]
  · intro h
    apply checkAuth_eq_false_of_not
    rintro ⟨_, s, h2, _⟩
    exact h ⟨s, h2.symm⟩
  · intro s hr hd
    apply checkAuth_eq_false_of_not
    rintro ⟨_, s2, h2, h3⟩
    have hs : s2 = s := List.append_cancel_left (h2.symm.trans hr)
    rw [hs, hd] at h3
    cases h3
  · intro s payload hr hd hc
    apply checkAuth_eq_false_of_not
    rintro ⟨_, s2, h2, h3⟩
    have hs : s2 = s := List.append_cancel_left (h2.symm.trans hr)
    rw [hs, hd] at h3
    have := Option.some.inj h3
    rw [this] at hc
    simp at hc

/-- Witness for C9: a header with the scheme in lower case, one whose payload
is not base64, and one whose payload `dXNlcg==` decodes to `user`. -/
theorem checkAuth_rejects_malformed_witness :
    (¬ (ascii "Basic " <+: (withAuth (ascii "basic dTpwdw==")).getProxyAuthorization) ∧
        checkAuth (ascii "u") (ascii "pw") (withAuth (ascii "basic dTpwdw==")) = false) ∧
      (DecodeString (ascii "dTpw*w==") = none ∧
        checkAuth (ascii "u") (ascii "pw") (withAuth (ascii "Basic dTpw*w==")) = false) ∧
      (DecodeString (ascii "dXNlcg==") = some (ascii "user") ∧ colon ∉ ascii "user" ∧
        checkAuth (ascii "u") (ascii "pw") (withAuth (ascii "Basic dXNlcg==")) = false) :=
  ⟨⟨by decide,
      (checkAuth_rejects_malformed (ascii "u") (ascii "pw")
        (withAuth (ascii "basic dTpwdw=="))).2.2.1 (by decide)⟩,
    ⟨by decide,
      (checkAuth_rejects_malformed (ascii "u") (ascii "pw")
        (withAuth (ascii "Basic dTpw*w=="))).2.2.2.1 (ascii "dTpw*w==") (by decide) (by decide)⟩,
    ⟨by decide, by decide,
      (checkAuth_rejects_malformed (ascii "u") (ascii "pw")
        (withAuth (ascii "Basic dXNlcg=="))).2.2.2.2 (ascii "dXNlcg==") (ascii "user")
          (by decide) (by decide) (by decide)⟩⟩

/-- C10, counterexample. For the credentials `u` / `pw` the valid header is
`Basic dTpwdw==`; flipping bit 6 of the payload byte at index 5 (`w` becomes
`7`) gives `Basic dTpwd7==`, which `checkAuth` still accepts. -/
theorem checkAuth_accepts_a_bit_flip :
    flipBitAt (EncodeToString (ascii "u" ++ ascii ":" ++ ascii "pw")) 5 6 = ascii "dTpwd7==" ∧
      checkAuth (ascii "u") (ascii "pw")
        (withAuth (ascii "Basic " ++
          flipBitAt (EncodeToString (ascii "u" ++ ascii ":" ++ ascii "pw")) 5 6)) = true := by
  decide

/-- C10, amended. Let `H = "Basic " + base64(user + ":" + pass)` and flip one
bit of one byte of the base64 payload. `checkAuth` accepts the flipped header
exactly when `user` has no colon and the flip falls in the unused low-order
bits of the last character before the `=` padding; every other flip makes
`checkAuth` return false. In particular every flip is rejected when
`len(user + ":" + pass)` is a multiple of 3 (no padding), and every flip at a
position other than the second or third byte from the end is rejected. -/
theorem checkAuth_bit_flip (authUser authPass : GoString) (i : Nat) (k : Fin 8)
    (r : Request)
    (hi : i < (EncodeToString (authUser ++ ascii ":" ++ authPass)).length)
    (hr : r.getProxyAuthorization =
      ascii "Basic " ++ flipBitAt (EncodeToString (authUser ++ ascii ":" ++ authPass)) i k) :
    (checkAuth authUser authPass r = true ↔
        colon ∉ authUser ∧
          flipInSlack (EncodeToString (authUser ++ ascii ":" ++ authPass)) i k = true) ∧
      ((authUser ++ ascii ":" ++ authPass).length % 3 = 0 →
        checkAuth authUser authPass r = false) ∧
      (i + 3 ≠ (EncodeToString (authUser ++ ascii ":" ++ authPass)).length →
        i + 2 ≠ (EncodeToString (authUser ++ ascii ":" ++ authPass)).length →
        checkAuth authUser authPass r = false) := by
  have key : checkAuth authUser authPass r = true ↔
      colon ∉ authUser ∧
        flipInSlack (EncodeToString (authUser ++ ascii ":" ++ authPass)) i k = true := by
    rw [checkAuth_iff_slack]
    constructor
    · rintro ⟨hu, s, h1, h2⟩
      have hs : s = flipBitAt (EncodeToString (authUser ++ ascii ":" ++ authPass)) i k :=
        List.append_cancel_left (h1.symm.trans hr)
      rw [hs] at h2
      exact ⟨hu, (eqUpToSlack_flipBitAt _ i k (EncodeToString_not_newline _)
        (eqUpToSlack_EncodeToString_self _) hi).mp h2⟩
    · rintro ⟨hu, h2⟩
      exact ⟨hu, _, hr, (eqUpToSlack_flipBitAt _ i k (EncodeToString_not_newline _)
        (eqUpToSlack_EncodeToString_self _) hi).mpr h2⟩
  refine ⟨key, ?_, ?_⟩
  · intro h3
    rw [Bool.eq_false_iff]
    intro h
    exact padChar_not_mem_EncodeToString _ h3 (flipInSlack_padChar_mem _ i k (key.mp h).2)
  · intro n3 n2
    rw [Bool.eq_false_iff]
    intro h
    rcases flipInSlack_index _ i k (key.mp h).2 with e | e
    · exact n3 e
    · exact n2 e

/-- Witness for C10 (amended): the credentials `u` / `pw`, byte 5, bit 6. -/
theorem checkAuth_bit_flip_witness :
    5 < (EncodeToString (ascii "u" ++ ascii ":" ++ ascii "pw")).length ∧
      (withAuth (ascii "Basic dTpwd7==")).getProxyAuthorization =
        ascii "Basic " ++ flipBitAt (EncodeToString (ascii "u" ++ ascii ":" ++ ascii "pw")) 5 6 ∧
      (checkAuth (ascii "u") (ascii "pw") (withAuth (ascii "Basic dTpwd7==")) = true ↔
        colon ∉ ascii "u" ∧
          flipInSlack (EncodeToString (ascii "u" ++ ascii ":" ++ ascii "pw")) 5 6 = true) :=
  ⟨by decide, by decide,
    (checkAuth_bit_flip (ascii "u") (ascii "pw") 5 6 (withAuth (ascii "Basic dTpwd7=="))
      (by decide) (by decide)).1⟩

/-! ## The tunnel handler: the trace on each path -/

theorem handleRequest_of_auth_false (mapLower : GoString → GoString) (cfg : Config)
    (world : World) (r : Request) (h : checkAuth cfg.authUser cfg.authPass r = false) :
    handleRequest mapLower cfg world r =
      [Action.setHeader (ascii "Proxy-Authenticate") (ascii "Basic realm=\"Restricted\""),
        Action.httpError (ascii "Proxy authentication required") 407,
        Action.logPrintf fmtAuthFail [r.remoteAddr]] := by
  simp [handleRequest, h, StatusProxyAuthRequired]

theorem handleRequest_of_method_ne (mapLower : GoString → GoString) (cfg : Config)
    (world : World) (r : Request) (hauth : checkAuth cfg.authUser cfg.authPass r = true)
    (hm : r.method ≠ MethodConnect) :
    handleRequest mapLower cfg world r =
      [Action.httpError (ascii "Only CONNECT method allowed") 405,
        Action.logPrintf fmtInvalidMethod [r.method, r.remoteAddr]] := by
  simp [handleRequest, hauth, hm, StatusMethodNotAllowed]

theorem handleRequest_of_domain_denied (mapLower : GoString → GoString) (cfg : Config)
    (world : World) (r : Request) (hauth : checkAuth cfg.authUser cfg.authPass r = true)
    (hm : r.method = MethodConnect)
    (hdom : isAllowedDomain mapLower cfg.allowedDomains r.host = false) :
    handleRequest mapLower cfg world r =
      [Action.httpError (ascii "Domain not allowed") 403,
        Action.logPrintf fmtDomainDenied [r.remoteAddr, r.host]] := by
  simp [handleRequest, hauth, hm, hdom, StatusForbidden]

theorem handleRequest_of_dial_error (mapLower : GoString → GoString) (cfg : Config)
    (world : World) (r : Request) (err : GoString)
    (hauth : checkAuth cfg.authUser cfg.authPass r = true)
    (hm : r.method = MethodConnect)
    (hdom : isAllowedDomain mapLower cfg.allowedDomains r.host = true)
    (hdial : world.dialErr (ascii "tcp") r.host = some err) :
    handleRequest mapLower cfg world r =
      [Action.logPrintf fmtConnect [r.remoteAddr, r.host],
        Action.dial (ascii "tcp") r.host,
        Action.httpError (ascii "Could not connect to destination") 503,
        Action.logPrintf fmtDialFailed [r.host, err]] := by
  simp [handleRequest, hauth, hm, hdom, hdial, StatusServiceUnavailable]

theorem handleRequest_of_no_hijacker (mapLower : GoString → GoString) (cfg : Config)
    (world : World) (r : Request)
    (hauth : checkAuth cfg.authUser cfg.authPass r = true)
    (hm : r.method = MethodConnect)
    (hdom : isAllowedDomain mapLower cfg.allowedDomains r.host = true)
    (hdial : world.dialErr (ascii "tcp") r.host = none) (hh : world.hijacker = false) :
    handleRequest mapLower cfg world r =
      [Action.logPrintf fmtConnect [r.remoteAddr, r.host],
        Action.dial (ascii "tcp") r.host,
        Action.httpError (ascii "Hijacking not supported") 500,
        Action.close Conn.dest] := by
  simp [handleRequest, hauth, hm, hdom, hdial, hh, StatusInternalServerError]

theorem handleRequest_of_hijack_error (mapLower : GoString → GoString) (cfg : Config)
    (world : World) (r : Request) (err : GoString)
    (hauth : checkAuth cfg.authUser cfg.authPass r = true)
    (hm : r.method = MethodConnect)
    (hdom : isAllowedDomain mapLower cfg.allowedDomains r.host = true)
    (hdial : world.dialErr (ascii "tcp") r.host = none) (hh : world.hijacker = true)
    (he : world.hijackErr = some err) :
    handleRequest mapLower cfg world r =
      [Action.logPrintf fmtConnect [r.remoteAddr, r.host],
        Action.dial (ascii "tcp") r.host,
        Action.hijack,
        Action.httpError (ascii "Hijacking failed") 500,
        Action.close Conn.dest] := by
  simp [handleRequest, hauth, hm, hdom, hdial, hh, he, StatusInternalServerError]

theorem handleRequest_of_established (mapLower : GoString → GoString) (cfg : Config)
    (world : World) (r : Request)
    (hauth : checkAuth cfg.authUser cfg.authPass r = true)
    (hm : r.method = MethodConnect)
    (hdom : isAllowedDomain mapLower cfg.allowedDomains r.host = true)
    (hdial : world.dialErr (ascii "tcp") r.host = none) (hh : world.hijacker = true)
    (he : world.hijackErr = none) :
    handleRequest mapLower cfg world r =
      [Action.logPrintf fmtConnect [r.remoteAddr, r.host],
        Action.dial (ascii "tcp") r.host,
        Action.hijack,
        Action.write Conn.client establishedLine,
        Action.goCopy Conn.dest Conn.client,
        Action.copy Conn.client Conn.dest,
        Action.close Conn.client,
        Action.close Conn.dest] := by
  simp [handleRequest, hauth, hm, hdom, hdial, hh, he]

/-! ## The tunnel handler: claims -/

/-- C3. When `checkAuth` is false, whatever the method and the target host,
the handler sets `Proxy-Authenticate: Basic realm="Restricted"`, responds
with status 407, logs the `auth_fail` event with the client address, and does
nothing else: in particular it dials no destination. -/
theorem handleRequest_auth_denied (mapLower : GoString → GoString) (cfg : Config)
    (world : World) (r : Request) (h : checkAuth cfg.authUser cfg.authPass r = false) :
    handleRequest mapLower cfg world r =
        [Action.setHeader (ascii "Proxy-Authenticate") (ascii "Basic realm=\"Restricted\""),
          Action.httpError (ascii "Proxy authentication required") 407,
          Action.logPrintf fmtAuthFail [r.remoteAddr]] ∧
      statusCodes (handleRequest mapLower cfg world r) = [407] ∧
      ∀ a ∈ handleRequest mapLower cfg world r, a.isDial = false := by
  rw [handleRequest_of_auth_false mapLower cfg world r h]
  refine ⟨rfl, rfl, ?_⟩
  intro a ha
  simp only [List.mem_cons, List.mem_singleton, List.not_mem_nil, or_false] at ha
  rcases ha with rfl | rfl | rfl <;> rfl

/-- Witness for C3: a request without credentials. -/
theorem handleRequest_auth_denied_witness :
    checkAuth sampleConfig.authUser sampleConfig.authPass
        { sampleRequest with proxyAuthorization := [] } = false ∧
      statusCodes (handleRequest id sampleConfig worldOk
        { sampleRequest with proxyAuthorization := [] }) = [407] :=
  ⟨by decide,
    (handleRequest_auth_denied id sampleConfig worldOk
      { sampleRequest with proxyAuthorization := [] } (by decide)).2.1⟩

/-- C4, counterexample. A `GET` request with correct credentials and a target
that is not allowed is answered with 405, not 403. -/
theorem handleRequest_denied_target_not_always_403 :
    checkAuth sampleConfig.authUser sampleConfig.authPass
        { sampleRequest with method := ascii "GET", host := ascii "evil.test:443" } = true ∧
      isAllowedDomain id sampleConfig.allowedDomains (ascii "evil.test:443") = false ∧
      statusCodes (handleRequest id sampleConfig worldOk
        { sampleRequest with method := ascii "GET", host := ascii "evil.test:443" }) = [405] := by
  decide

/-- C4, amended. A `CONNECT` request with correct credentials whose target
host is not allowed is answered with status 403 and the `domain_denied`
event; and whatever the method and the credentials, a request whose target
host is not allowed never leads to a dial. -/
theorem handleRequest_domain_denied (mapLower : GoString → GoString) (cfg : Config)
    (world : World) (r : Request)
    (hdom : isAllowedDomain mapLower cfg.allowedDomains r.host = false) :
    (checkAuth cfg.authUser cfg.authPass r = true → r.method = MethodConnect →
        handleRequest mapLower cfg world r =
            [Action.httpError (ascii "Domain not allowed") 403,
              Action.logPrintf fmtDomainDenied [r.remoteAddr, r.host]] ∧
          statusCodes (handleRequest mapLower cfg world r) = [403]) ∧
      ∀ a ∈ handleRequest mapLower cfg world r, a.isDial = false := by
  constructor
  · intro hauth hm
    rw [handleRequest_of_domain_denied mapLower cfg world r hauth hm hdom]
    exact ⟨rfl, rfl⟩
  · intro a ha
    by_cases hauth : checkAuth cfg.authUser cfg.authPass r = true
    · by_cases hm : r.method = MethodConnect
      · rw [handleRequest_of_domain_denied mapLower cfg world r hauth hm hdom] at ha
        simp only [List.mem_cons, List.mem_singleton, List.not_mem_nil, or_false] at ha
        rcases ha with rfl | rfl <;> rfl
      · rw [handleRequest_of_method_ne mapLower cfg world r hauth hm] at ha
        simp only [List.mem_cons, List.mem_singleton, List.not_mem_nil, or_false] at ha
        rcases ha with rfl | rfl <;> rfl
    · have hf : checkAuth cfg.authUser cfg.authPass r = false := by
        simpa using hauth
      rw [handleRequest_of_auth_false mapLower cfg world r hf] at ha
      simp only [List.mem_cons, List.mem_singleton, List.not_mem_nil, or_false] at ha
      rcases ha with rfl | rfl | rfl <;> rfl

/-- Witness for C4 (amended): `CONNECT evil.test:443` with the right credentials. -/
theorem handleRequest_domain_denied_witness :
    isAllowedDomain id sampleConfig.allowedDomains
        ({ sampleRequest with host := ascii "evil.test:443" } : Request).host = false ∧
      statusCodes (handleRequest id sampleConfig worldOk
        { sampleRequest with host := ascii "evil.test:443" }) = [403] :=
  ⟨by decide,
    ((handleRequest_domain_denied id sampleConfig worldOk
      { sampleRequest with host := ascii "evil.test:443" } (by decide)).1
        (by decide) (by decide)).2⟩

/-- C5. A request with correct credentials whose method is not `CONNECT`,
whatever its target, is answered with status 405 and the `invalid_method`
event carrying the method and the client address, and nothing else happens:
no destination is dialed. -/
theorem handleRequest_method_rejected (mapLower : GoString → GoString) (cfg : Config)
    (world : World) (r : Request) (hauth : checkAuth cfg.authUser cfg.authPass r = true)
    (hm : r.method ≠ MethodConnect) :
    handleRequest mapLower cfg world r =
        [Action.httpError (ascii "Only CONNECT method allowed") 405,
          Action.logPrintf fmtInvalidMethod [r.method, r.remoteAddr]] ∧
      statusCodes (handleRequest mapLower cfg world r) = [405] ∧
      ∀ a ∈ handleRequest mapLower cfg world r, a.isDial = false := by
  rw [handleRequest_of_method_ne mapLower cfg world r hauth hm]
  refine ⟨rfl, rfl, ?_⟩
  intro a ha
  simp only [List.mem_cons, List.mem_singleton, List.not_mem_nil, or_false] at ha
  rcases ha with rfl | rfl <;> rfl

/-- Witness for C5: a `GET` request to an allowed host with the right credentials. -/
theorem handleRequest_method_rejected_witness :
    checkAuth sampleConfig.authUser sampleConfig.authPass
        { sampleRequest with method := ascii "GET" } = true ∧
      ({ sampleRequest with method := ascii "GET" } : Request).method ≠ MethodConnect ∧
      statusCodes (handleRequest id sampleConfig worldOk
        { sampleRequest with method := ascii "GET" }) = [405] :=
  ⟨by decide, by decide,
    (handleRequest_method_rejected id sampleConfig worldOk
      { sampleRequest with method := ascii "GET" } (by decide) (by decide)).2.1⟩

/-- C6. When a request passes the authentication, the `CONNECT` check and the
domain check and the dial fails with error `err`, the handler logs `connect`,
dials, responds with status 503 and logs `dial_failed` with the target and
the error; it writes nothing to a connection (so no "200 Connection
established" line) and starts no copy in either direction. -/
theorem handleRequest_dial_failed (mapLower : GoString → GoString) (cfg : Config)
    (world : World) (r : Request) (err : GoString)
    (hauth : checkAuth cfg.authUser cfg.authPass r = true)
    (hm : r.method = MethodConnect)
    (hdom : isAllowedDomain mapLower cfg.allowedDomains r.host = true)
    (hdial : world.dialErr (ascii "tcp") r.host = some err) :
    handleRequest mapLower cfg world r =
        [Action.logPrintf fmtConnect [r.remoteAddr, r.host],
          Action.dial (ascii "tcp") r.host,
          Action.httpError (ascii "Could not connect to destination") 503,
          Action.logPrintf fmtDialFailed [r.host, err]] ∧
      statusCodes (handleRequest mapLower cfg world r) = [503] ∧
      ∀ a ∈ handleRequest mapLower cfg world r, a.isWrite = false ∧ a.isRelay = false := by
  rw [handleRequest_of_dial_error mapLower cfg world r err hauth hm hdom hdial]
  refine ⟨rfl, rfl, ?_⟩
  intro a ha
  simp only [List.mem_cons, List.mem_singleton, List.not_mem_nil, or_false] at ha
  rcases ha with rfl | rfl | rfl | rfl <;> exact ⟨rfl, rfl⟩

/-- Witness for C6: the sample request when every dial is refused. -/
theorem handleRequest_dial_failed_witness :
    checkAuth sampleConfig.authUser sampleConfig.authPass sampleRequest = true ∧
      sampleRequest.method = MethodConnect ∧
      isAllowedDomain id sampleConfig.allowedDomains sampleRequest.host = true ∧
      worldRefused.dialErr (ascii "tcp") sampleRequest.host = some (ascii "connection refused") ∧
      statusCodes (handleRequest id sampleConfig worldRefused sampleRequest) = [503] :=
  ⟨by decide, by decide, by decide, rfl,
    (handleRequest_dial_failed id sampleConfig worldRefused sampleRequest
      (ascii "connection refused") (by decide) (by decide) (by decide) rfl).2.1⟩

/-- C7. For a request with correct credentials, method `CONNECT` and an
allowed target, the handler first logs the `connect` event with the client
and the target and then dials the request's `host:port` over TCP, and that is
its only dial. When the dial and the hijack succeed, the whole run is: the
`connect` event, the dial, the hijack, the write of exactly
`HTTP/1.1 200 Connection established\r\n\r\n` to the client connection, the
two copies, the two closes; that write is the only write and no header or
status is sent through the response writer. -/
theorem handleRequest_established (mapLower : GoString → GoString) (cfg : Config)
    (world : World) (r : Request)
    (hauth : checkAuth cfg.authUser cfg.authPass r = true)
    (hm : r.method = MethodConnect)
    (hdom : isAllowedDomain mapLower cfg.allowedDomains r.host = true) :
    (∃ rest, handleRequest mapLower cfg world r =
        Action.logPrintf fmtConnect [r.remoteAddr, r.host] ::
          Action.dial (ascii "tcp") r.host :: rest) ∧
      (handleRequest mapLower cfg world r).filter Action.isDial =
        [Action.dial (ascii "tcp") r.host] ∧
      (world.dialErr (ascii "tcp") r.host = none → world.hijacker = true →
        world.hijackErr = none →
        handleRequest mapLower cfg world r =
          [Action.logPrintf fmtConnect [r.remoteAddr, r.host],
            Action.dial (ascii "tcp") r.host,
            Action.hijack,
            Action.write Conn.client (ascii "HTTP/1.1 200 Connection established\r\n\r\n"),
            Action.goCopy Conn.dest Conn.client,
            Action.copy Conn.client Conn.dest,
            Action.close Conn.client,
            Action.close Conn.dest] ∧
        (handleRequest mapLower cfg world r).filter
            (fun a => a.isWrite || a.isResponse) =
          [Action.write Conn.client (ascii "HTTP/1.1 200 Connection established\r\n\r\n")]) := by
  refine ⟨?_, ?_, ?_⟩
  · simp [handleRequest, hauth, hm, hdom]
  · cases hd : world.dialErr (ascii "tcp") r.host with
    | some err =>
      rw [handleRequest_of_dial_error mapLower cfg world r err hauth hm hdom hd]
      rfl
    | none =>
      cases hh : world.hijacker with
      | false =>
        rw [handleRequest_of_no_hijacker mapLower cfg world r hauth hm hdom hd hh]
        rfl
      | true =>
        cases he : world.hijackErr with
        | some e =>
          rw [handleRequest_of_hijack_error mapLower cfg world r e hauth hm hdom hd hh he]
          rfl
        | none =>
          rw [handleRequest_of_established mapLower cfg world r hauth hm hdom hd hh he]
          rfl
  · intro hd hh he
    rw [handleRequest_of_established mapLower cfg world r hauth hm hdom hd hh he]
    exact ⟨rfl, rfl⟩

/-- Witness for C7: the sample request when the dial and the hijack succeed. -/
theorem handleRequest_established_witness :
    checkAuth sampleConfig.authUser sampleConfig.authPass sampleRequest = true ∧
      sampleRequest.method = MethodConnect ∧
      isAllowedDomain id sampleConfig.allowedDomains sampleRequest.host = true ∧
      (handleRequest id sampleConfig worldOk sampleRequest).filter Action.isDial =
        [Action.dial (ascii "tcp") (ascii "api.example.com:443")] :=
  ⟨by decide, by decide, by decide,
    (handleRequest_established id sampleConfig worldOk sampleRequest
      (by decide) (by decide) (by decide)).2.1⟩

/-! ## Splitting at every separator -/

theorem IndexByte_count (s : GoString) (c : Byte) (m : Nat) (h : IndexByte s c = some m) :
    (s.drop (m + 1)).count c + 1 = s.count c := by
  obtain ⟨e, hn⟩ := IndexByte_some_spec s c m h
  have hc : (s.take m).count c = 0 := List.count_eq_zero.mpr hn
  have e2 := congrArg (List.count c) e
  rw [List.count_append, hc, List.count_cons_self] at e2
  omega

theorem genSplitLoop_ne_nil (c : Byte) (n : Nat) (s : GoString) : genSplitLoop c n s ≠ [] := by
  cases n with
  | zero => simp [genSplitLoop]
  | succ n =>
    simp only [genSplitLoop]
    cases IndexByte s c <;> simp

theorem genSplitLoop_count (c : Byte) (n : Nat) (s : GoString) (h : s.count c = n) :
    (∀ p ∈ genSplitLoop c n s, c ∉ p) ∧ [c].intercalate (genSplitLoop c n s) = s := by
  induction n generalizing s with
  | zero =>
    simp only [genSplitLoop, List.mem_singleton, forall_eq]
    exact ⟨List.count_eq_zero.mp h, by simp [List.intercalate]⟩
  | succ n ih =>
    simp only [genSplitLoop]
    cases hi : IndexByte s c with
    | none =>
      have := (IndexByte_eq_none_iff s c).mp hi
      rw [List.count_eq_zero.mpr this] at h
      omega
    | some m =>
      obtain ⟨e, hn⟩ := IndexByte_some_spec s c m hi
      have hcount := IndexByte_count s c m hi
      obtain ⟨ih1, ih2⟩ := ih (s.drop (m + 1)) (by omega)
      constructor
      · intro p hp
        simp only [List.mem_cons] at hp
        rcases hp with rfl | hp
        · exact hn
        · exact ih1 p hp
      · obtain ⟨g, gs, hg⟩ := List.exists_cons_of_ne_nil (genSplitLoop_ne_nil c n (s.drop (m + 1)))
        dsimp only
        rw [hg] at ih2 ⊢
        have : [c].intercalate (s.take m :: g :: gs) =
            s.take m ++ c :: [c].intercalate (g :: gs) := by
          simp [List.intercalate, List.intersperse]
        rw [this, ih2]
        exact e.symm

/-- Go `strings.Split(s, sep)` for a one-byte separator cuts `s` at every
separator: no piece holds the separator, and the pieces joined with the
separator give `s` back. -/
theorem Split_spec (s : GoString) (c : Byte) :
    (∀ p ∈ Split s c, c ∉ p) ∧ [c].intercalate (Split s c) = s := by
  have hle : s.count c ≤ s.length := List.count_le_length c s
  have e : Split s c = genSplitLoop c (s.count c) s := by
    simp only [Split, genSplit, Count]
    have h1 : ¬ ((-1 : Int) = 0) := by omega
    have h2 : ((-1 : Int) < 0) := by omega
    simp only [h1, h2, if_true, if_false]
    have h3 : ¬ (s.count c + 1 > s.length + 1) := by omega
    simp [h3]
  rw [e]
  exact genSplitLoop_count c (s.count c) s rfl

theorem Split_of_not_mem (s : GoString) (c : Byte) (h : c ∉ s) : Split s c = [s] := by
  simp only [Split, genSplit, Count]
  have h1 : ¬ ((-1 : Int) = 0) := by omega
  have h2 : ((-1 : Int) < 0) := by omega
  simp only [h1, h2, if_true, if_false, List.count_eq_zero.mpr h]
  have h3 : ¬ (0 + 1 > s.length + 1) := by omega
  simp [h3, genSplitLoop]

/-! ## The allowlist parser as a filter over the pieces -/

theorem parseDomains_foldl (u : UnicodeLib) (pieces acc : List GoString) :
    pieces.foldl
        (fun cleaned p =>
          let d := TrimSpace u p
          if d ≠ [] then cleaned ++ [ToLower u.mapLower d] else cleaned)
        acc =
      acc ++ pieces.filterMap (fun p =>
        if TrimSpace u p = [] then none else some (ToLower u.mapLower (TrimSpace u p))) := by
  induction pieces generalizing acc with
  | nil => simp
  | cons p ps ih =>
    simp only [List.foldl_cons, List.filterMap_cons]
    rw [ih]
    by_cases h : TrimSpace u p = []
    · simp [h]
    · simp [h]

theorem parseDomains_eq_filterMap (u : UnicodeLib) (raw : GoString) :
    parseDomains u raw =
      (Split raw comma).filterMap (fun p =>
        if TrimSpace u p = [] then none else some (ToLower u.mapLower (TrimSpace u p))) := by
  unfold parseDomains
  rw [parseDomains_foldl]
  simp

theorem mem_parseDomains (u : UnicodeLib) (raw e : GoString) :
    e ∈ parseDomains u raw ↔
      ∃ p ∈ Split raw comma, TrimSpace u p ≠ [] ∧ e = ToLower u.mapLower (TrimSpace u p) := by
  rw [parseDomains_eq_filterMap, List.mem_filterMap]
  constructor
  · rintro ⟨p, hp, h⟩
    by_cases hd : TrimSpace u p = []
    · simp [hd] at h
    · simp only [hd, if_false, Option.some.injEq] at h
      exact ⟨p, hp, hd, h.symm⟩
  · rintro ⟨p, hp, hd, rfl⟩
    exact ⟨p, hp, by simp [hd]⟩

/-! ## Trimming and lowering, given the library facts -/

set_option maxRecDepth 100000 in
theorem asciiSpace_isASCII : ∀ c : Byte, asciiSpace c = true → isASCIIByte c = true := by
  decide

set_option maxRecDepth 100000 in
theorem lowerASCIIByte_not_upper : ∀ c : Byte, isUpperASCII (lowerASCIIByte c) = false := by
  decide

set_option maxRecDepth 100000 in
theorem lowerASCIIByte_eq_comma : ∀ c : Byte, lowerASCIIByte c = comma → c = comma := by
  decide

set_option maxRecDepth 100000 in
theorem lowerASCIIByte_eq_dot : ∀ c : Byte, lowerASCIIByte c = dot ↔ c = dot := by
  decide

set_option maxRecDepth 100000 in
theorem asciiSpace_lowerASCIIByte : ∀ c : Byte, asciiSpace (lowerASCIIByte c) = asciiSpace c := by
  decide

set_option maxRecDepth 100000 in
theorem isASCIIByte_lowerASCIIByte :
    ∀ c : Byte, isASCIIByte c = true → isASCIIByte (lowerASCIIByte c) = true := by
  decide

theorem trimSpaceEnd_initial (u : UnicodeLib) (hu : u.Sound) (l : GoString) :
    trimSpaceEnd u l <+: l.reverse := by
  induction l with
  | nil => simp [trimSpaceEnd]
  | cons c t ih =>
    simp only [trimSpaceEnd]
    by_cases h1 : isASCIIByte c = true
    · by_cases h2 : asciiSpace c = true
      · simp only [h1, h2, Bool.not_true, Bool.false_eq_true, if_false, if_true]
        rw [List.reverse_cons]
        exact ih.trans (List.prefix_append _ _)
      · simp [h1, h2]
    · simp only [Bool.not_eq_true] at h1
      simp only [h1, Bool.not_false, if_true]
      exact hu.trimRight_initial _

theorem trimSpaceEnd_last (u : UnicodeLib) (hu : u.Sound) (l : GoString) :
    u.isSpaceLast (trimSpaceEnd u l) = false := by
  induction l with
  | nil => simpa [trimSpaceEnd] using hu.last_nil
  | cons c t ih =>
    simp only [trimSpaceEnd]
    by_cases h1 : isASCIIByte c = true
    · by_cases h2 : asciiSpace c = true
      · simpa [h1, h2] using ih
      · simp only [h1, h2, Bool.not_true, Bool.false_eq_true, if_false]
        rw [List.reverse_cons, hu.last_ascii c _ h1]
        simpa using h2
    · simp only [Bool.not_eq_true] at h1
      simp only [h1, Bool.not_false, if_true]
      exact hu.trimRight_last _

theorem TrimSpace_slice (u : UnicodeLib) (hu : u.Sound) (s : GoString) :
    TrimSpace u s <:+: s := by
  induction s with
  | nil => simp [TrimSpace]
  | cons c t ih =>
    simp only [TrimSpace]
    by_cases h1 : isASCIIByte c = true
    · by_cases h2 : asciiSpace c = true
      · simp only [h1, h2, Bool.not_true, Bool.false_eq_true, if_false, if_true]
        exact ih.trans (List.infix_cons (List.infix_refl t))
      · simp only [h1, h2, Bool.not_true, Bool.false_eq_true, if_false]
        have := trimSpaceEnd_initial u hu (c :: t).reverse
        rw [List.reverse_reverse] at this
        exact this.isInfix
    · simp only [Bool.not_eq_true] at h1
      simp only [h1, Bool.not_false, if_true]
      exact hu.trim_slice _

theorem TrimSpace_first (u : UnicodeLib) (hu : u.Sound) (s : GoString) :
    u.isSpaceFirst (TrimSpace u s) = false := by
  induction s with
  | nil => simpa [TrimSpace] using hu.first_nil
  | cons c t ih =>
    simp only [TrimSpace]
    by_cases h1 : isASCIIByte c = true
    · by_cases h2 : asciiSpace c = true
      · simpa [h1, h2] using ih
      · simp only [h1, h2, Bool.not_true, Bool.false_eq_true, if_false]
        have hp := trimSpaceEnd_initial u hu (c :: t).reverse
        rw [List.reverse_reverse] at hp
        cases hd : trimSpaceEnd u (c :: t).reverse with
        | nil => exact hu.first_nil
        | cons x xs =>
          rw [hd] at hp
          obtain ⟨r, hr⟩ := hp
          simp only [List.cons_append, List.cons.injEq] at hr
          rw [hr.1, hu.first_ascii c _ h1]
          simpa using h2
    · simp only [Bool.not_eq_true] at h1
      simp only [h1, Bool.not_false, if_true]
      exact hu.trim_first _

theorem TrimSpace_last (u : UnicodeLib) (hu : u.Sound) (s : GoString) :
    u.isSpaceLast (TrimSpace u s) = false := by
  induction s with
  | nil => simpa [TrimSpace] using hu.last_nil
  | cons c t ih =>
    simp only [TrimSpace]
    by_cases h1 : isASCIIByte c = true
    · by_cases h2 : asciiSpace c = true
      · simpa [h1, h2] using ih
      · simp only [h1, h2, Bool.not_true, Bool.false_eq_true, if_false]
        exact trimSpaceEnd_last u hu _
    · simp only [Bool.not_eq_true] at h1
      simp only [h1, Bool.not_false, if_true]
      exact hu.trim_last _

theorem ToLower_ne_nil (u : UnicodeLib) (hu : u.Sound) (d : GoString) (hd : d ≠ []) :
    ToLower u.mapLower d ≠ [] := by
  unfold ToLower
  by_cases h : d.all isASCIIByte = true
  · simpa [h] using hd
  · simp only [h, if_false]
    exact hu.lower_ne_nil d hd

theorem ToLower_no_upper (u : UnicodeLib) (hu : u.Sound) (d : GoString) :
    ∀ c ∈ ToLower u.mapLower d, isUpperASCII c = false := by
  unfold ToLower
  by_cases h : d.all isASCIIByte = true
  · simp only [h, if_true, List.mem_map]
    rintro c ⟨x, _, rfl⟩
    exact lowerASCIIByte_not_upper x
  · simp only [h, if_false]
    exact hu.lower_no_upper d

theorem ToLower_comma (u : UnicodeLib) (hu : u.Sound) (d : GoString)
    (h : comma ∈ ToLower u.mapLower d) : comma ∈ d := by
  unfold ToLower at h
  by_cases ha : d.all isASCIIByte = true
  · simp only [ha, if_true, List.mem_map] at h
    obtain ⟨x, hx, e⟩ := h
    rw [← lowerASCIIByte_eq_comma x e]
    exact hx
  · simp only [ha, if_false] at h
    exact hu.lower_comma d h

theorem ToLower_first (u : UnicodeLib) (hu : u.Sound) (d : GoString)
    (h : u.isSpaceFirst d = false) : u.isSpaceFirst (ToLower u.mapLower d) = false := by
  unfold ToLower
  by_cases ha : d.all isASCIIByte = true
  · simp only [ha, if_true]
    cases d with
    | nil => simpa using hu.first_nil
    | cons c t =>
      have hc : isASCIIByte c = true := by
        simp only [List.all_cons, Bool.and_eq_true] at ha
        exact ha.1
      rw [hu.first_ascii c t hc] at h
      rw [List.map_cons, hu.first_ascii _ _ (isASCIIByte_lowerASCIIByte c hc),
        asciiSpace_lowerASCIIByte]
      exact h
  · simp only [ha, if_false]
    rw [Bool.eq_false_iff]
    intro hs
    rw [hu.lower_first d hs] at h
    cases h

theorem ToLower_last (u : UnicodeLib) (hu : u.Sound) (d : GoString)
    (h : u.isSpaceLast d = false) : u.isSpaceLast (ToLower u.mapLower d) = false := by
  unfold ToLower
  by_cases ha : d.all isASCIIByte = true
  · simp only [ha, if_true]
    rcases List.eq_nil_or_concat d with rfl | ⟨t, c, rfl⟩
    · simpa using hu.last_nil
    · rw [List.concat_eq_append] at h ha ⊢
      have hc : isASCIIByte c = true := by
        simp only [List.all_append, List.all_cons, List.all_nil, Bool.and_true,
          Bool.and_eq_true] at ha
        exact ha.2
      rw [hu.last_ascii c t hc] at h
      rw [List.map_append, List.map_cons, List.map_nil,
        hu.last_ascii _ _ (isASCIIByte_lowerASCIIByte c hc), asciiSpace_lowerASCIIByte]
      exact h
  · simp only [ha, if_false]
    rw [Bool.eq_false_iff]
    intro hs
    rw [hu.lower_last d hs] at h
    cases h

/-! ## The ASCII instance of the library functions -/

theorem head?_any_of_initial (p : Byte → Bool) (a b : GoString) (h : a <+: b)
    (ha : a.head?.any p = true) : b.head?.any p = true := by
  cases a with
  | nil => simp at ha
  | cons x xs =>
    obtain ⟨r, rfl⟩ := h
    simpa using ha

theorem getLast?_rdropWhile_not (p : Byte → Bool) (l : GoString) :
    (l.rdropWhile p).getLast?.any p = false := by
  by_cases h : l.rdropWhile p = []
  · simp [h]
  · have := List.rdropWhile_last_not p l h
    rw [List.getLast?_eq_getLast _ h]
    simpa using this

theorem asciiLib_sound : asciiLib.Sound where
  lower_ne_nil := by
    intro s hs
    simpa [asciiLib] using hs
  lower_no_upper := by
    intro s c hc
    simp only [asciiLib, List.mem_map] at hc
    obtain ⟨x, _, rfl⟩ := hc
    exact lowerASCIIByte_not_upper x
  lower_comma := by
    intro s h
    simp only [asciiLib, List.mem_map] at h
    obtain ⟨x, hx, e⟩ := h
    rw [← lowerASCIIByte_eq_comma x e]
    exact hx
  lower_first := by
    intro s h
    cases s with
    | nil => simp [asciiLib] at h
    | cons c t =>
      simp only [asciiLib, List.map_cons, List.head?_cons, Option.any_some] at h ⊢
      rwa [asciiSpace_lowerASCIIByte] at h
  lower_last := by
    intro s h
    rcases List.eq_nil_or_concat s with rfl | ⟨t, c, rfl⟩
    · simp [asciiLib] at h
    · rw [List.concat_eq_append] at h ⊢
      simp only [asciiLib, List.map_append, List.map_cons, List.map_nil, List.getLast?_concat,
        Option.any_some] at h ⊢
      rwa [asciiSpace_lowerASCIIByte] at h
  trim_slice := by
    intro s
    exact (List.rdropWhile_prefix asciiSpace (s.dropWhile asciiSpace)).isInfix.trans
      (List.dropWhile_suffix asciiSpace).isInfix
  trim_first := by
    intro s
    rw [Bool.eq_false_iff]
    intro h
    have h2 := head?_any_of_initial asciiSpace _ _
      (List.rdropWhile_prefix asciiSpace (s.dropWhile asciiSpace)) h
    have h3 := List.head?_dropWhile_not asciiSpace s
    cases hd : (s.dropWhile asciiSpace).head? with
    | none => simp [hd] at h2
    | some x =>
      rw [hd] at h2 h3
      simp only [Option.any_some] at h2
      simp [h2] at h3
  trim_last := by
    intro s
    exact getLast?_rdropWhile_not asciiSpace _
  trimRight_initial := by
    intro s
    exact List.rdropWhile_prefix asciiSpace s
  trimRight_last := by
    intro s
    exact getLast?_rdropWhile_not asciiSpace _
  first_nil := rfl
  last_nil := rfl
  first_ascii := by
    intro c t _
    simp [asciiLib]
  last_ascii := by
    intro c t _
    simp [asciiLib]

/-! ## The domain matcher on input without a port -/

theorem ascii_dot_append (d : GoString) : ascii "." ++ d = dot :: d := rfl

theorem isAllowedDomain_of_split_none (mapLower : GoString → GoString)
    (allowedDomains : List GoString) (hostport : GoString)
    (h : SplitHostPort hostport = none) :
    isAllowedDomain mapLower allowedDomains hostport = true ↔
      ∃ d ∈ allowedDomains,
        ToLower mapLower hostport = d ∨ (ascii "." ++ d) <:+ ToLower mapLower hostport := by
  unfold isAllowedDomain
  rw [h]
  simp only [List.any_eq_true, Bool.or_eq_true, decide_eq_true_eq, HasSuffix_iff,
    ascii_dot_append]

/-- C17. For an input without `':'`, `net.SplitHostPort` reports an error and
`isAllowedDomain` takes the whole string as the host: the result is true
exactly when the lowercased whole string equals some allowlist entry or ends
with `"." +` that entry. The function returns a result on every such input. -/
theorem isAllowedDomain_without_port (mapLower : GoString → GoString)
    (allowedDomains : List GoString) (s : GoString) (hs : colon ∉ s) :
    SplitHostPort s = none ∧
      (isAllowedDomain mapLower allowedDomains s = true ↔
        ∃ d ∈ allowedDomains,
          ToLower mapLower s = d ∨ (ascii "." ++ d) <:+ ToLower mapLower s) ∧
      (isAllowedDomain mapLower allowedDomains s = false ↔
        ∀ d ∈ allowedDomains,
          ToLower mapLower s ≠ d ∧ ¬ (ascii "." ++ d) <:+ ToLower mapLower s) := by
  have hsplit : SplitHostPort s = none := by
    unfold SplitHostPort
    rw [(LastIndexByte_eq_none_iff s colon).mpr hs]
  have hiff := isAllowedDomain_of_split_none mapLower allowedDomains s hsplit
  refine ⟨hsplit, hiff, ?_⟩
  rw [Bool.eq_false_iff, Ne, hiff]
  simp only [not_exists, not_and, not_or]

/-- Witness for C17: the input `API.Example.com`, which has no port. -/
theorem isAllowedDomain_without_port_witness :
    colon ∉ ascii "API.Example.com" ∧
      SplitHostPort (ascii "API.Example.com") = none ∧
      isAllowedDomain id [ascii "example.com"] (ascii "API.Example.com") = true :=
  ⟨by decide,
    (isAllowedDomain_without_port id [ascii "example.com"] (ascii "API.Example.com")
      (by decide)).1,
    (isAllowedDomain_without_port id [ascii "example.com"] (ascii "API.Example.com")
      (by decide)).2.1.mpr
      ⟨ascii "example.com", by decide, Or.inr (by decide)⟩⟩

/-! ## The startup -/

theorem main_of_missing (u : UnicodeLib) (env : Env)
    (h : env.proxyUser = [] ∨ env.proxyPass = [] ∨ env.allowedDomains = []) :
    main u env = [MainAction.logFatal msgMissingEnv] := by
  simp only [main, h, if_true]

theorem main_of_present (u : UnicodeLib) (env : Env)
    (h : ¬ (env.proxyUser = [] ∨ env.proxyPass = [] ∨ env.allowedDomains = [])) :
    main u env =
      [MainAction.logAllowedDomains (parseDomains u env.allowedDomains),
        MainAction.logListening listenAddr,
        MainAction.listenAndServe listenAddr
          { allowedDomains := parseDomains u env.allowedDomains,
            authUser := env.proxyUser, authPass := env.proxyPass },
        MainAction.logFatalServe] := by
  simp only [main, h, if_false]

theorem main_listen (u : UnicodeLib) (env : Env) (addr : GoString) (cfg : Config)
    (h : MainAction.listenAndServe addr cfg ∈ main u env) :
    ¬ (env.proxyUser = [] ∨ env.proxyPass = [] ∨ env.allowedDomains = []) ∧
      addr = listenAddr ∧
      cfg = { allowedDomains := parseDomains u env.allowedDomains,
              authUser := env.proxyUser, authPass := env.proxyPass } := by
  by_cases hm : env.proxyUser = [] ∨ env.proxyPass = [] ∨ env.allowedDomains = []
  · rw [main_of_missing u env hm] at h
    simp at h
  · rw [main_of_present u env hm] at h
    simp only [List.mem_cons, List.mem_singleton, List.not_mem_nil, or_false, reduceCtorEq,
      false_or, MainAction.listenAndServe.injEq] at h
    exact ⟨hm, h.1, h.2⟩

/-- C12, counterexample. With `PROXY_USER=u`, `PROXY_PASS=pw` and
`ALLOWED_DOMAINS=","` the startup check passes and `main` reaches
`ListenAndServe` with an empty allowlist. -/
theorem main_serves_empty_allowlist :
    parseDomains asciiLib (ascii ",") = [] ∧
      servedAllowlists
        (main asciiLib { proxyUser := ascii "u", proxyPass := ascii "pw",
                         allowedDomains := ascii "," }) = [[]] := by
  decide

/-- C12, amended. If `main` reaches `ListenAndServe`, the configured user and
password are non-empty and the raw `ALLOWED_DOMAINS` value is non-empty (the
allowlist parsed from it is `parseDomains` of that value and may be empty);
and when the user, the password or the raw domain list is missing (empty),
`main` only calls `log.Fatal` and never binds a listener. -/
theorem main_startup_check (u : UnicodeLib) (env : Env) :
    (∀ addr cfg, MainAction.listenAndServe addr cfg ∈ main u env →
        cfg.authUser ≠ [] ∧ cfg.authPass ≠ [] ∧ env.allowedDomains ≠ [] ∧
          cfg.authUser = env.proxyUser ∧ cfg.authPass = env.proxyPass ∧
          cfg.allowedDomains = parseDomains u env.allowedDomains) ∧
      (env.proxyUser = [] ∨ env.proxyPass = [] ∨ env.allowedDomains = [] →
        main u env = [MainAction.logFatal msgMissingEnv] ∧
          ∀ a ∈ main u env, a.isListen = false) := by
  constructor
  · intro addr cfg h
    obtain ⟨hm, _, rfl⟩ := main_listen u env addr cfg h
    simp only [not_or] at hm
    exact ⟨hm.1, hm.2.1, hm.2.2, rfl, rfl, rfl⟩
  · intro h
    rw [main_of_missing u env h]
    refine ⟨rfl, ?_⟩
    intro a ha
    simp only [List.mem_singleton] at ha
    rw [ha]
    rfl

/-- Witness for C12 (amended): an environment without `PROXY_PASS`. -/
theorem main_startup_check_witness :
    (({ proxyUser := ascii "u", proxyPass := [], allowedDomains := ascii "example.com" } :
          Env).proxyUser = [] ∨
        ({ proxyUser := ascii "u", proxyPass := [], allowedDomains := ascii "example.com" } :
          Env).proxyPass = [] ∨
        ({ proxyUser := ascii "u", proxyPass := [], allowedDomains := ascii "example.com" } :
          Env).allowedDomains = []) ∧
      main asciiLib
          { proxyUser := ascii "u", proxyPass := [], allowedDomains := ascii "example.com" } =
        [MainAction.logFatal msgMissingEnv] :=
  ⟨Or.inr (Or.inl rfl),
    ((main_startup_check asciiLib
      { proxyUser := ascii "u", proxyPass := [], allowedDomains := ascii "example.com" }).2
        (Or.inr (Or.inl rfl))).1⟩

/-- C19. When the configured user name contains a colon, `checkAuth` is false
for every request, in particular for the header
`"Basic " + base64(user + ":" + pass)`: the payload `user + ":" + pass` is cut
at the first colon, which lies inside the user name, so the first piece is
not the user name. The startup check lets such a user name through: with a
non-empty password and domain list `main` reaches `ListenAndServe` with it. -/
theorem checkAuth_user_with_colon (authUser authPass : GoString) (h : colon ∈ authUser) :
    (∀ r : Request, checkAuth authUser authPass r = false) ∧
      checkAuth authUser authPass
        (withAuth (ascii "Basic " ++ EncodeToString (authUser ++ ascii ":" ++ authPass)))
          = false ∧
      (∃ x y, authUser = x ++ colon :: y ∧ colon ∉ x ∧
        SplitN (authUser ++ ascii ":" ++ authPass) colon 2 =
          [x, y ++ ascii ":" ++ authPass]) ∧
      (∀ (u : UnicodeLib) (env : Env), env.proxyUser = authUser → env.proxyPass ≠ [] →
        env.allowedDomains ≠ [] →
        ∃ cfg, MainAction.listenAndServe listenAddr cfg ∈ main u env ∧
          cfg.authUser = authUser) := by
  have hall : ∀ r : Request, checkAuth authUser authPass r = false := by
    intro r
    rw [Bool.eq_false_iff]
    intro ht
    exact ((checkAuth_iff_decodes authUser authPass r).mp ht).1 h
  refine ⟨hall, hall _, ?_, ?_⟩
  · cases hi : IndexByte authUser colon with
    | none => exact absurd h ((IndexByte_eq_none_iff authUser colon).mp hi)
    | some m =>
      obtain ⟨e, hn⟩ := IndexByte_some_spec authUser colon m hi
      refine ⟨authUser.take m, authUser.drop (m + 1), e, hn, ?_⟩
      apply (SplitN_two_eq_pair _ _ _ _).mpr
      refine ⟨?_, hn⟩
      nth_rewrite 1 [e]
      simp [List.append_assoc]
  · intro u env hu hp hd
    have hne : env.proxyUser ≠ [] := by
      rw [hu]
      intro e
      rw [e] at h
      simp at h
    have hm : ¬ (env.proxyUser = [] ∨ env.proxyPass = [] ∨ env.allowedDomains = []) := by
      simp [hne, hp, hd]
    refine ⟨{ allowedDomains := parseDomains u env.allowedDomains,
              authUser := env.proxyUser, authPass := env.proxyPass }, ?_, hu⟩
    rw [main_of_present u env hm]
    simp

/-- Witness for C19: the user name `a:b` with the password `c`. -/
theorem checkAuth_user_with_colon_witness :
    colon ∈ ascii "a:b" ∧
      checkAuth (ascii "a:b") (ascii "c")
        (withAuth (ascii "Basic " ++ EncodeToString (ascii "a:b" ++ ascii ":" ++ ascii "c")))
          = false :=
  ⟨by decide, (checkAuth_user_with_colon (ascii "a:b") (ascii "c") (by decide)).2.1⟩

/-! ## The allowlist parser: claims -/

theorem trimSpaceEnd_of_head (u : UnicodeLib) (c : Byte) (t : GoString)
    (h1 : isASCIIByte c = true) (h2 : asciiSpace c = false) :
    trimSpaceEnd u (c :: t) = (c :: t).reverse := by
  simp [trimSpaceEnd, h1, h2]

theorem TrimSpace_self (u : UnicodeLib) (s : GoString)
    (h : ∀ c ∈ s, isASCIIByte c = true ∧ asciiSpace c = false) : TrimSpace u s = s := by
  cases s with
  | nil => rfl
  | cons c t =>
    obtain ⟨h1, h2⟩ := h c (by simp)
    simp only [TrimSpace, h1, h2, Bool.not_true, Bool.false_eq_true, if_false]
    rcases List.eq_nil_or_concat (c :: t) with e | ⟨l, x, e⟩
    · cases e
    · rw [e, List.concat_eq_append, List.reverse_append, List.reverse_singleton,
        List.singleton_append]
      have hx : x ∈ c :: t := by rw [e]; simp
      obtain ⟨x1, x2⟩ := h x hx
      rw [trimSpaceEnd_of_head u x _ x1 x2]
      simp

theorem ToLower_ascii (mapLower : GoString → GoString) (s : GoString)
    (h : ∀ c ∈ s, isASCIIByte c = true) : ToLower mapLower s = s.map lowerASCIIByte := by
  unfold ToLower
  rw [if_pos (List.all_eq_true.mpr h)]

theorem parseDomains_single (u : UnicodeLib) (s : GoString) (hs : s ≠ [])
    (h : ∀ c ∈ s, isASCIIByte c = true ∧ asciiSpace c = false ∧ c ≠ comma) :
    parseDomains u s = [s.map lowerASCIIByte] := by
  have hc : comma ∉ s := fun hm => (h comma hm).2.2 rfl
  have ht : TrimSpace u s = s := TrimSpace_self u s (fun c hm => ⟨(h c hm).1, (h c hm).2.1⟩)
  rw [parseDomains_eq_filterMap, Split_of_not_mem s comma hc]
  simp only [List.filterMap_cons, List.filterMap_nil, ht, hs, if_false]
  rw [ToLower_ascii u.mapLower s (fun c hm => (h c hm).1)]

/-- C11, counterexample. The raw value `example.com.` gives the one entry
`example.com.`, which ends with a dot. -/
theorem parseDomains_keeps_trailing_dot :
    parseDomains asciiLib (ascii "example.com.") = [ascii "example.com."] ∧
      (ascii "example.com.").getLast? = some dot := by
  decide

/-- C11, amended. Every entry of the allowlist built at startup (the
allowlist `main` serves with is `parseDomains` of the raw `ALLOWED_DOMAINS`
value) is lowercase: it is the result of `strings.ToLower` on a non-empty
string and holds no upper-case ASCII letter. A trailing dot is not removed:
for an ASCII name `p` without comma or white space, `parseDomains(p + ".")`
is the one entry `lower(p) + "."`. -/
theorem parseDomains_lowercase (u : UnicodeLib) (hu : u.Sound) (raw : GoString) :
    (∀ e ∈ parseDomains u raw,
        (∃ d, d ≠ [] ∧ e = ToLower u.mapLower d) ∧ ∀ c ∈ e, isUpperASCII c = false) ∧
      (∀ (env : Env) (addr : GoString) (cfg : Config),
        MainAction.listenAndServe addr cfg ∈ main u env →
        cfg.allowedDomains = parseDomains u env.allowedDomains) ∧
      (∀ p : GoString,
        (∀ c ∈ p, isASCIIByte c = true ∧ asciiSpace c = false ∧ c ≠ comma) →
        parseDomains u (p ++ ascii ".") = [p.map lowerASCIIByte ++ ascii "."]) := by
  refine ⟨?_, ?_, ?_⟩
  · intro e he
    obtain ⟨p, _, hd, rfl⟩ := (mem_parseDomains u raw e).mp he
    exact ⟨⟨_, hd, rfl⟩, ToLower_no_upper u hu _⟩
  · intro env addr cfg h
    obtain ⟨_, _, rfl⟩ := main_listen u env addr cfg h
    rfl
  · intro p hp
    have e : p ++ ascii "." = p ++ [dot] := rfl
    rw [e, parseDomains_single u (p ++ [dot]) (by simp)]
    · simp only [List.map_append, List.map_cons, List.map_nil, List.cons.injEq, and_true]
      rfl
    · intro c hc
      simp only [List.mem_append, List.mem_singleton] at hc
      rcases hc with hc | rfl
      · exact hp c hc
      · decide

/-- Witness for C11 (amended): the ASCII instance of the library and the raw
value ` Example.COM ,api.test.`. -/
theorem parseDomains_lowercase_witness :
    asciiLib.Sound ∧
      ∀ e ∈ parseDomains asciiLib (ascii " Example.COM ,api.test."),
        (∃ d, d ≠ [] ∧ e = ToLower asciiLib.mapLower d) ∧ ∀ c ∈ e, isUpperASCII c = false :=
  ⟨asciiLib_sound,
    (parseDomains_lowercase asciiLib asciiLib_sound (ascii " Example.COM ,api.test.")).1⟩

theorem asciiSpace_head_of_isSpaceFirst (u : UnicodeLib) (hu : u.Sound) (e : GoString)
    (h : u.isSpaceFirst e = false) : e.head?.any asciiSpace = false := by
  cases e with
  | nil => rfl
  | cons c t =>
    simp only [List.head?_cons, Option.any_some]
    by_cases hc : isASCIIByte c = true
    · rw [← hu.first_ascii c t hc]
      exact h
    · rw [Bool.eq_false_iff]
      intro hs
      exact hc (asciiSpace_isASCII c hs)

theorem asciiSpace_last_of_isSpaceLast (u : UnicodeLib) (hu : u.Sound) (e : GoString)
    (h : u.isSpaceLast e = false) : e.getLast?.any asciiSpace = false := by
  rcases List.eq_nil_or_concat e with rfl | ⟨t, c, rfl⟩
  · rfl
  · rw [List.concat_eq_append] at h ⊢
    simp only [List.getLast?_concat, Option.any_some]
    by_cases hc : isASCIIByte c = true
    · rw [← hu.last_ascii c t hc]
      exact h
    · rw [Bool.eq_false_iff]
      intro hs
      exact hc (asciiSpace_isASCII c hs)

/-- C20. For every raw string: the pieces `strings.Split(raw, ",")` hold no
comma and give `raw` back when joined with commas; `parseDomains(raw)` is, in
the order of these pieces, the lowered trimmed piece for each piece whose
trimmed form is not empty; every entry is non-empty, holds no comma, and has
no white space at its start or at its end (as a code point, and so also no
byte of `asciiSpace`); so the allowlist has no empty entry. -/
theorem parseDomains_entries (u : UnicodeLib) (hu : u.Sound) (raw : GoString) :
    ((∀ p ∈ Split raw comma, comma ∉ p) ∧ [comma].intercalate (Split raw comma) = raw) ∧
      parseDomains u raw =
        (Split raw comma).filterMap (fun p =>
          if TrimSpace u p = [] then none
          else some (ToLower u.mapLower (TrimSpace u p))) ∧
      (∀ e ∈ parseDomains u raw,
        e ≠ [] ∧ comma ∉ e ∧ u.isSpaceFirst e = false ∧ u.isSpaceLast e = false ∧
          e.head?.any asciiSpace = false ∧ e.getLast?.any asciiSpace = false) ∧
      [] ∉ parseDomains u raw := by
  have hent : ∀ e ∈ parseDomains u raw,
      e ≠ [] ∧ comma ∉ e ∧ u.isSpaceFirst e = false ∧ u.isSpaceLast e = false ∧
        e.head?.any asciiSpace = false ∧ e.getLast?.any asciiSpace = false := by
    intro e he
    obtain ⟨p, hp, hd, rfl⟩ := (mem_parseDomains u raw e).mp he
    have hcp : comma ∉ p := (Split_spec raw comma).1 p hp
    have hcd : comma ∉ TrimSpace u p := fun hm => hcp ((TrimSpace_slice u hu p).subset hm)
    have hf := ToLower_first u hu _ (TrimSpace_first u hu p)
    have hl := ToLower_last u hu _ (TrimSpace_last u hu p)
    exact ⟨ToLower_ne_nil u hu _ hd, fun hm => hcd (ToLower_comma u hu _ hm), hf, hl,
      asciiSpace_head_of_isSpaceFirst u hu _ hf, asciiSpace_last_of_isSpaceLast u hu _ hl⟩
  exact ⟨Split_spec raw comma, parseDomains_eq_filterMap u raw, hent,
    fun hm => (hent [] hm).1 rfl⟩

/-- Witness for C20: the ASCII instance of the library and the raw value
` Example.COM , ,api.test.,`. -/
theorem parseDomains_entries_witness :
    asciiLib.Sound ∧
      parseDomains asciiLib (ascii " Example.COM , ,api.test.,") =
        [ascii "example.com", ascii "api.test."] ∧
      [] ∉ parseDomains asciiLib (ascii " Example.COM , ,api.test.,") :=
  ⟨asciiLib_sound, by decide,
    (parseDomains_entries asciiLib asciiLib_sound (ascii " Example.COM , ,api.test.,")).2.2.2⟩

/-! ## The tunnel handler: all paths -/

/-- The seven paths of `handleRequest`, each with the conditions that select
it and the trace it produces. -/
theorem handleRequest_paths (mapLower : GoString → GoString) (cfg : Config)
    (world : World) (r : Request) :
    (checkAuth cfg.authUser cfg.authPass r = false ∧
        handleRequest mapLower cfg world r =
          [Action.setHeader (ascii "Proxy-Authenticate") (ascii "Basic realm=\"Restricted\""),
            Action.httpError (ascii "Proxy authentication required") 407,
            Action.logPrintf fmtAuthFail [r.remoteAddr]]) ∨
      (checkAuth cfg.authUser cfg.authPass r = true ∧ r.method ≠ MethodConnect ∧
        handleRequest mapLower cfg world r =
          [Action.httpError (ascii "Only CONNECT method allowed") 405,
            Action.logPrintf fmtInvalidMethod [r.method, r.remoteAddr]]) ∨
      (checkAuth cfg.authUser cfg.authPass r = true ∧ r.method = MethodConnect ∧
        isAllowedDomain mapLower cfg.allowedDomains r.host = false ∧
        handleRequest mapLower cfg world r =
          [Action.httpError (ascii "Domain not allowed") 403,
            Action.logPrintf fmtDomainDenied [r.remoteAddr, r.host]]) ∨
      (checkAuth cfg.authUser cfg.authPass r = true ∧ r.method = MethodConnect ∧
        isAllowedDomain mapLower cfg.allowedDomains r.host = true ∧
        ∃ err, world.dialErr (ascii "tcp") r.host = some err ∧
          handleRequest mapLower cfg world r =
            [Action.logPrintf fmtConnect [r.remoteAddr, r.host],
              Action.dial (ascii "tcp") r.host,
              Action.httpError (ascii "Could not connect to destination") 503,
              Action.logPrintf fmtDialFailed [r.host, err]]) ∨
      (checkAuth cfg.authUser cfg.authPass r = true ∧ r.method = MethodConnect ∧
        isAllowedDomain mapLower cfg.allowedDomains r.host = true ∧
        world.dialErr (ascii "tcp") r.host = none ∧ world.hijacker = false ∧
        handleRequest mapLower cfg world r =
          [Action.logPrintf fmtConnect [r.remoteAddr, r.host],
            Action.dial (ascii "tcp") r.host,
            Action.httpError (ascii "Hijacking not supported") 500,
            Action.close Conn.dest]) ∨
      (checkAuth cfg.authUser cfg.authPass r = true ∧ r.method = MethodConnect ∧
        isAllowedDomain mapLower cfg.allowedDomains r.host = true ∧
        world.dialErr (ascii "tcp") r.host = none ∧ world.hijacker = true ∧
        (∃ err, world.hijackErr = some err) ∧
        handleRequest mapLower cfg world r =
          [Action.logPrintf fmtConnect [r.remoteAddr, r.host],
            Action.dial (ascii "tcp") r.host,
            Action.hijack,
            Action.httpError (ascii "Hijacking failed") 500,
            Action.close Conn.dest]) ∨
      (checkAuth cfg.authUser cfg.authPass r = true ∧ r.method = MethodConnect ∧
        isAllowedDomain mapLower cfg.allowedDomains r.host = true ∧
        world.dialErr (ascii "tcp") r.host = none ∧ world.hijacker = true ∧
        world.hijackErr = none ∧
        handleRequest mapLower cfg world r =
          [Action.logPrintf fmtConnect [r.remoteAddr, r.host],
            Action.dial (ascii "tcp") r.host,
            Action.hijack,
            Action.write Conn.client establishedLine,
            Action.goCopy Conn.dest Conn.client,
            Action.copy Conn.client Conn.dest,
            Action.close Conn.client,
            Action.close Conn.dest]) := by
  cases hauth : checkAuth cfg.authUser cfg.authPass r with
  | false => exact Or.inl ⟨rfl, handleRequest_of_auth_false mapLower cfg world r hauth⟩
  | true =>
    right
    by_cases hm : r.method = MethodConnect
    · right
      cases hdom : isAllowedDomain mapLower cfg.allowedDomains r.host with
      | false =>
        exact Or.inl ⟨rfl, hm, rfl,
          handleRequest_of_domain_denied mapLower cfg world r hauth hm hdom⟩
      | true =>
        right
        cases hd : world.dialErr (ascii "tcp") r.host with
        | some err =>
          exact Or.inl ⟨rfl, hm, rfl, err, rfl,
            handleRequest_of_dial_error mapLower cfg world r err hauth hm hdom hd⟩
        | none =>
          right
          cases hh : world.hijacker with
          | false =>
            exact Or.inl ⟨rfl, hm, rfl, rfl, rfl,
              handleRequest_of_no_hijacker mapLower cfg world r hauth hm hdom hd hh⟩
          | true =>
            right
            cases he : world.hijackErr with
            | some e =>
              exact Or.inl ⟨rfl, hm, rfl, rfl, rfl, ⟨e, rfl⟩,
                handleRequest_of_hijack_error mapLower cfg world r e hauth hm hdom hd hh he⟩
            | none =>
              exact Or.inr ⟨rfl, hm, rfl, rfl, rfl, rfl,
                handleRequest_of_established mapLower cfg world r hauth hm hdom hd hh he⟩
    · exact Or.inl ⟨rfl, hm, handleRequest_of_method_ne mapLower cfg world r hauth hm⟩

theorem precededBy_split (p q : Action → Bool) (l : List Action) (seen : Bool)
    (h : precededBy p q seen l = true) (pre post : List Action) (a : Action)
    (hl : l = pre ++ a :: post) (hq : q a = true) :
    seen = true ∨ ∃ x ∈ pre, p x = true := by
  induction l generalizing seen pre with
  | nil => cases pre <;> simp at hl
  | cons b t ih =>
    simp only [precededBy, Bool.and_eq_true, Bool.or_eq_true, Bool.not_eq_true'] at h
    cases pre with
    | nil =>
      simp only [List.nil_append, List.cons.injEq] at hl
      obtain ⟨rfl, _⟩ := hl
      rcases h.1 with hb | hs
      · rw [hq] at hb; cases hb
      · exact Or.inl hs
    | cons c pre =>
      simp only [List.cons_append, List.cons.injEq] at hl
      obtain ⟨rfl, rfl⟩ := hl
      rcases ih (seen || p b) h.2 pre rfl with hs | ⟨x, hx, hpx⟩
      · simp only [Bool.or_eq_true] at hs
        rcases hs with hs | hs
        · exact Or.inl hs
        · exact Or.inr ⟨b, by simp, hs⟩
      · exact Or.inr ⟨x, by simp [hx], hpx⟩

theorem handleRequest_connect_precedes_dial (mapLower : GoString → GoString) (cfg : Config)
    (world : World) (r : Request) :
    precededBy (fun x => decide (x = Action.logPrintf fmtConnect [r.remoteAddr, r.host]))
      Action.isDial false (handleRequest mapLower cfg world r) = true := by
  rcases handleRequest_paths mapLower cfg world r with
    ⟨_, h⟩ | ⟨_, _, h⟩ | ⟨_, _, _, h⟩ | ⟨_, _, _, _, _, h⟩ | ⟨_, _, _, _, _, h⟩ |
    ⟨_, _, _, _, _, _, h⟩ | ⟨_, _, _, _, _, _, h⟩ <;>
  rw [h] <;> simp [precededBy, Action.isDial]

theorem handleRequest_line_precedes_relay (mapLower : GoString → GoString) (cfg : Config)
    (world : World) (r : Request) :
    precededBy (fun x => decide (x = Action.write Conn.client establishedLine))
      Action.isRelay false (handleRequest mapLower cfg world r) = true := by
  rcases handleRequest_paths mapLower cfg world r with
    ⟨_, h⟩ | ⟨_, _, h⟩ | ⟨_, _, _, h⟩ | ⟨_, _, _, _, _, h⟩ | ⟨_, _, _, _, _, h⟩ |
    ⟨_, _, _, _, _, _, h⟩ | ⟨_, _, _, _, _, _, h⟩ <;>
  rw [h] <;> simp [precededBy, Action.isRelay]

theorem handleRequest_dial_precedes_line (mapLower : GoString → GoString) (cfg : Config)
    (world : World) (r : Request) :
    precededBy (fun x => decide (x = Action.dial (ascii "tcp") r.host))
      (fun x => decide (x = Action.write Conn.client establishedLine)) false
      (handleRequest mapLower cfg world r) = true := by
  rcases handleRequest_paths mapLower cfg world r with
    ⟨_, h⟩ | ⟨_, _, h⟩ | ⟨_, _, _, h⟩ | ⟨_, _, _, _, _, h⟩ | ⟨_, _, _, _, _, h⟩ |
    ⟨_, _, _, _, _, _, h⟩ | ⟨_, _, _, _, _, _, h⟩ <;>
  rw [h] <;> simp [precededBy]

/-! ## The tunnel handler: events, order, closes -/

/-- C14, counterexample. On the dial-failed path the handler writes two event
lines, `connect` and then `dial_failed`, not one. -/
theorem handleRequest_dial_failed_two_events :
    worldRefused.dialErr (ascii "tcp") sampleRequest.host = some (ascii "connection refused") ∧
      eventLines (handleRequest id sampleConfig worldRefused sampleRequest) =
        [Action.logPrintf fmtConnect [sampleRequest.remoteAddr, sampleRequest.host],
          Action.logPrintf fmtDialFailed [sampleRequest.host, ascii "connection refused"]] ∧
      (eventLines (handleRequest id sampleConfig worldRefused sampleRequest)).length = 2 := by
  decide

/-- C14, amended. The event lines written on each terminal failure path:
authentication denied, method rejected and domain denied write exactly one
line each (`auth_fail`, `invalid_method`, `domain_denied`); dial failed writes
exactly two, `connect` and then `dial_failed`; takeover unsupported and
takeover failed write exactly one, the `connect` line written before the
dial. -/
theorem handleRequest_event_lines (mapLower : GoString → GoString) (cfg : Config)
    (world : World) (r : Request) :
    (checkAuth cfg.authUser cfg.authPass r = false →
        eventLines (handleRequest mapLower cfg world r) =
          [Action.logPrintf fmtAuthFail [r.remoteAddr]]) ∧
      (checkAuth cfg.authUser cfg.authPass r = true → r.method ≠ MethodConnect →
        eventLines (handleRequest mapLower cfg world r) =
          [Action.logPrintf fmtInvalidMethod [r.method, r.remoteAddr]]) ∧
      (checkAuth cfg.authUser cfg.authPass r = true → r.method = MethodConnect →
        isAllowedDomain mapLower cfg.allowedDomains r.host = false →
        eventLines (handleRequest mapLower cfg world r) =
          [Action.logPrintf fmtDomainDenied [r.remoteAddr, r.host]]) ∧
      (checkAuth cfg.authUser cfg.authPass r = true → r.method = MethodConnect →
        isAllowedDomain mapLower cfg.allowedDomains r.host = true →
        (∀ err, world.dialErr (ascii "tcp") r.host = some err →
          eventLines (handleRequest mapLower cfg world r) =
            [Action.logPrintf fmtConnect [r.remoteAddr, r.host],
              Action.logPrintf fmtDialFailed [r.host, err]]) ∧
        (world.dialErr (ascii "tcp") r.host = none → world.hijacker = false →
          eventLines (handleRequest mapLower cfg world r) =
            [Action.logPrintf fmtConnect [r.remoteAddr, r.host]]) ∧
        (∀ err, world.dialErr (ascii "tcp") r.host = none → world.hijacker = true →
          world.hijackErr = some err →
          eventLines (handleRequest mapLower cfg world r) =
            [Action.logPrintf fmtConnect [r.remoteAddr, r.host]])) := by
  refine ⟨?_, ?_, ?_, ?_⟩
  · intro h
    rw [handleRequest_of_auth_false mapLower cfg world r h]
    rfl
  · intro h hm
    rw [handleRequest_of_method_ne mapLower cfg world r h hm]
    rfl
  · intro h hm hd
    rw [handleRequest_of_domain_denied mapLower cfg world r h hm hd]
    rfl
  · intro h hm hd
    refine ⟨?_, ?_, ?_⟩
    · intro err he
      rw [handleRequest_of_dial_error mapLower cfg world r err h hm hd he]
      rfl
    · intro he hh
      rw [handleRequest_of_no_hijacker mapLower cfg world r h hm hd he hh]
      rfl
    · intro err he hh hj
      rw [handleRequest_of_hijack_error mapLower cfg world r err h hm hd he hh hj]
      rfl

/-- Witness for C14 (amended): the sample request without credentials, and
the sample request when `Hijack` fails. -/
theorem handleRequest_event_lines_witness :
    (checkAuth sampleConfig.authUser sampleConfig.authPass
          { sampleRequest with proxyAuthorization := [] } = false ∧
        eventLines (handleRequest id sampleConfig worldOk
          { sampleRequest with proxyAuthorization := [] }) =
            [Action.logPrintf fmtAuthFail [sampleRequest.remoteAddr]]) ∧
      eventLines (handleRequest id sampleConfig worldHijackFails sampleRequest) =
        [Action.logPrintf fmtConnect [sampleRequest.remoteAddr, sampleRequest.host]] :=
  ⟨⟨by decide,
      (handleRequest_event_lines id sampleConfig worldOk
        { sampleRequest with proxyAuthorization := [] }).1 (by decide)⟩,
    ((handleRequest_event_lines id sampleConfig worldHijackFails sampleRequest).2.2.2
      (by decide) (by decide) (by decide)).2.2 (ascii "hijack failed") rfl rfl rfl⟩

/-- C15. In every run of `handleRequest`, wherever the trace is cut at a dial,
the `connect` event stands strictly before it; and wherever it is cut at a
copy (`go io.Copy` or `io.Copy`), the write of the
`HTTP/1.1 200 Connection established` line stands strictly before it. -/
theorem handleRequest_ordering (mapLower : GoString → GoString) (cfg : Config)
    (world : World) (r : Request) (pre post : List Action) (a : Action)
    (h : handleRequest mapLower cfg world r = pre ++ a :: post) :
    (a.isDial = true → Action.logPrintf fmtConnect [r.remoteAddr, r.host] ∈ pre) ∧
      (a.isRelay = true → Action.write Conn.client establishedLine ∈ pre) := by
  constructor
  · intro ha
    rcases precededBy_split _ _ _ false
      (handleRequest_connect_precedes_dial mapLower cfg world r) pre post a h ha with
      hs | ⟨x, hx, hpx⟩
    · cases hs
    · have : x = Action.logPrintf fmtConnect [r.remoteAddr, r.host] := by simpa using hpx
      rw [← this]
      exact hx
  · intro ha
    rcases precededBy_split _ _ _ false
      (handleRequest_line_precedes_relay mapLower cfg world r) pre post a h ha with
      hs | ⟨x, hx, hpx⟩
    · cases hs
    · have : x = Action.write Conn.client establishedLine := by simpa using hpx
      rw [← this]
      exact hx

/-- Witness for C15: the established run of the sample request, cut at the
copy on the handler's goroutine. -/
theorem handleRequest_ordering_witness :
    handleRequest id sampleConfig worldOk sampleRequest =
        [Action.logPrintf fmtConnect [sampleRequest.remoteAddr, sampleRequest.host],
          Action.dial (ascii "tcp") sampleRequest.host, Action.hijack,
          Action.write Conn.client establishedLine, Action.goCopy Conn.dest Conn.client] ++
        Action.copy Conn.client Conn.dest ::
          [Action.close Conn.client, Action.close Conn.dest] ∧
      Action.write Conn.client establishedLine ∈
        [Action.logPrintf fmtConnect [sampleRequest.remoteAddr, sampleRequest.host],
          Action.dial (ascii "tcp") sampleRequest.host, Action.hijack,
          Action.write Conn.client establishedLine, Action.goCopy Conn.dest Conn.client] :=
  ⟨by decide,
    (handleRequest_ordering id sampleConfig worldOk sampleRequest
      [Action.logPrintf fmtConnect [sampleRequest.remoteAddr, sampleRequest.host],
        Action.dial (ascii "tcp") sampleRequest.host, Action.hijack,
        Action.write Conn.client establishedLine, Action.goCopy Conn.dest Conn.client]
      [Action.close Conn.client, Action.close Conn.dest]
      (Action.copy Conn.client Conn.dest) (by decide)).2 rfl⟩

/-- C16. On every exit path of `handleRequest` the destination connection is
closed exactly once if it was opened (the dial was attempted and succeeded)
and never otherwise, and the client connection is closed exactly once if it
was detached (`Hijack` was called and succeeded) and never otherwise. -/
theorem handleRequest_closes_once (mapLower : GoString → GoString) (cfg : Config)
    (world : World) (r : Request) :
    (handleRequest mapLower cfg world r).count (Action.close Conn.dest) =
        (if destOpened world r (handleRequest mapLower cfg world r) then 1 else 0) ∧
      (handleRequest mapLower cfg world r).count (Action.close Conn.client) =
        (if clientOpened world (handleRequest mapLower cfg world r) then 1 else 0) := by
  rcases handleRequest_paths mapLower cfg world r with
    ⟨_, h⟩ | ⟨_, _, h⟩ | ⟨_, _, _, h⟩ | ⟨_, _, _, err, hd, h⟩ | ⟨_, _, _, hd, hh, h⟩ |
    ⟨_, _, _, hd, hh, ⟨err, he⟩, h⟩ | ⟨_, _, _, hd, hh, he, h⟩ <;>
  rw [h] <;>
  simp [destOpened, clientOpened, Action.isDial, List.count_cons, *]

/-- C18. In every run of `handleRequest`, an action that is a dial occurs only
when `checkAuth` was true, the method is `CONNECT` and `isAllowedDomain` was
true for `r.Host`, and it is the dial of exactly `r.Host` over `tcp`; and
wherever the `200 Connection established` line is written, that dial stands
before it and returned no error. -/
theorem handleRequest_dial_guarded (mapLower : GoString → GoString) (cfg : Config)
    (world : World) (r : Request) :
    (∀ a ∈ handleRequest mapLower cfg world r, a.isDial = true →
        checkAuth cfg.authUser cfg.authPass r = true ∧ r.method = MethodConnect ∧
          isAllowedDomain mapLower cfg.allowedDomains r.host = true ∧
          a = Action.dial (ascii "tcp") r.host) ∧
      (∀ pre post, handleRequest mapLower cfg world r =
          pre ++ Action.write Conn.client establishedLine :: post →
        world.dialErr (ascii "tcp") r.host = none ∧
          Action.dial (ascii "tcp") r.host ∈ pre) := by
  constructor
  · intro a ha hd
    rcases handleRequest_paths mapLower cfg world r with
      ⟨_, h⟩ | ⟨_, _, h⟩ | ⟨_, _, _, h⟩ | ⟨h1, h2, h3, _, _, h⟩ | ⟨h1, h2, h3, _, _, h⟩ |
      ⟨h1, h2, h3, _, _, _, h⟩ | ⟨h1, h2, h3, _, _, _, h⟩ <;>
    rw [h] at ha <;>
    simp only [List.mem_cons, List.mem_singleton, List.not_mem_nil, or_false] at ha
    · rcases ha with rfl | rfl | rfl <;> cases hd
    · rcases ha with rfl | rfl <;> cases hd
    · rcases ha with rfl | rfl <;> cases hd
    · rcases ha with rfl | rfl | rfl | rfl <;> first | exact ⟨h1, h2, h3, rfl⟩ | cases hd
    · rcases ha with rfl | rfl | rfl | rfl <;> first | exact ⟨h1, h2, h3, rfl⟩ | cases hd
    · rcases ha with rfl | rfl | rfl | rfl | rfl <;>
        first | exact ⟨h1, h2, h3, rfl⟩ | cases hd
    · rcases ha with rfl | rfl | rfl | rfl | rfl | rfl | rfl | rfl <;>
        first | exact ⟨h1, h2, h3, rfl⟩ | cases hd
  · intro pre post h
    have hmem : Action.write Conn.client establishedLine ∈ handleRequest mapLower cfg world r := by
      rw [h]; simp
    constructor
    · rcases handleRequest_paths mapLower cfg world r with
        ⟨_, e⟩ | ⟨_, _, e⟩ | ⟨_, _, _, e⟩ | ⟨_, _, _, _, _, e⟩ | ⟨_, _, _, _, _, e⟩ |
        ⟨_, _, _, _, _, _, e⟩ | ⟨_, _, _, hd, _, _, e⟩
      all_goals first | exact hd | (rw [e] at hmem; simp at hmem)
    · rcases precededBy_split _ _ _ false
        (handleRequest_dial_precedes_line mapLower cfg world r) pre post _ h
        (by simp) with hs | ⟨x, hx, hpx⟩
      · cases hs
      · have : x = Action.dial (ascii "tcp") r.host := by simpa using hpx
        rw [← this]
        exact hx

/-- Witness for C18: the established run of the sample request, cut at the
write of the `200` line. -/
theorem handleRequest_dial_guarded_witness :
    handleRequest id sampleConfig worldOk sampleRequest =
        [Action.logPrintf fmtConnect [sampleRequest.remoteAddr, sampleRequest.host],
          Action.dial (ascii "tcp") sampleRequest.host, Action.hijack] ++
        Action.write Conn.client establishedLine ::
          [Action.goCopy Conn.dest Conn.client, Action.copy Conn.client Conn.dest,
            Action.close Conn.client, Action.close Conn.dest] ∧
      worldOk.dialErr (ascii "tcp") sampleRequest.host = none :=
  ⟨by decide,
    ((handleRequest_dial_guarded id sampleConfig worldOk sampleRequest).2
      [Action.logPrintf fmtConnect [sampleRequest.remoteAddr, sampleRequest.host],
        Action.dial (ascii "tcp") sampleRequest.host, Action.hijack]
      [Action.goCopy Conn.dest Conn.client, Action.copy Conn.client Conn.dest,
        Action.close Conn.client, Action.close Conn.dest] (by decide)).1⟩

end TProxy
